import Mathlib

/-!
Verification of the 2048 board engine (lib-2048) and the Discord bot's
stateless state-recovery codec (discord-2048) against the repository's
specification.

The board engine is embedded from src/lib-2048/src/lib.rs: cells are
`BoardSpace` (Vacant or Tile), the grid is a 4x4 list of rows, and `move`
translates the four directional sweep blocks of `GameBoard::move` loop by
loop.  Features referenced by the in-repo callers (discord-2048/src/main.rs
uses `score`, `cells` and `has_lost()`) but absent from the lib.rs snapshot
are modelled from the specification and marked as such in their doc
comments.
-/

namespace Game2048

/-- A space on the game board, from lib.rs: `Vacant` or `Tile(usize)`. -/
inductive BoardSpace where
  | Vacant
  | Tile (n : Nat)
deriving DecidableEq, Repr

export BoardSpace (Vacant Tile)

/-- The direction of a move, from lib.rs `MoveDirection`. -/
inductive MoveDirection where
  | Up
  | Down
  | Left
  | Right
deriving DecidableEq, Repr

/-- A row (or column) of the board: a list of four cells. -/
abbrev Row := List BoardSpace

/-- The grid of `GameBoard`: a list of four rows, row-major, origin top-left. -/
abbrev Grid := List Row

/-- Well-formedness: the grid is 4x4 (`GAME_BOARD_SIZE = 4`). -/
def WF (g : Grid) : Prop := g.length = 4 ∧ ∀ r ∈ g, r.length = 4

/-- Whether a cell is occupied. -/
def isTile : BoardSpace → Bool
  | Vacant => false
  | Tile _ => true

/-- Scan a cell list forward, reporting the first `Tile` together with its
absolute index; `i` is the index of the head.  Helper for the ascending
inner scan loops of `GameBoard::move`. -/
def firstTileAux : List BoardSpace → Nat → Option (Nat × Nat)
  | [], _ => none
  | Vacant :: rest, i => firstTileAux rest (i + 1)
  | Tile v :: rest, i => some (i, v)

/-- First `Tile` of `r` at an index ≥ `s`, with its index: the ascending
inner scans `for x2 in (x+1)..len` / `for x2 in x..len` of lib.rs. -/
def firstTileFrom (r : Row) (s : Nat) : Option (Nat × Nat) :=
  firstTileAux (r.drop s) s

/-- First `Tile` of `r` at an index < `x`, scanning downward from `x - 1`:
the descending inner scans `for x2 in (0..x).rev()` of lib.rs. -/
def firstTileBelow (r : Row) : Nat → Option (Nat × Nat)
  | 0 => none
  | x + 1 =>
    match r.getD x Vacant with
    | Tile v => some (x, v)
    | Vacant => firstTileBelow r x

/-- One iteration of the Left merge scan (lib.rs `MoveDirection::Left`,
first inner loop): if cell `x` holds `Tile t`, find the nearest non-Vacant
cell to its right; if it is an equal tile, double in place and vacate it. -/
def leftMergeAt (r : Row) (x : Nat) : Row :=
  match r.getD x Vacant with
  | Tile t =>
    match firstTileFrom r (x + 1) with
    | some (x2, t2) =>
      if t2 = t then (r.set x (Tile (t * 2))).set x2 Vacant else r
    | none => r
  | Vacant => r

/-- One iteration of the Left compaction scan (lib.rs `MoveDirection::Left`,
second inner loop): if cell `x` is Vacant, swap it with the nearest tile at
or to the right of `x` (`self.0[y].swap(x, x2)` with `r[x]` Vacant). -/
def leftCompactAt (r : Row) (x : Nat) : Row :=
  match r.getD x Vacant with
  | Vacant =>
    match firstTileFrom r x with
    | some (x2, v) => (r.set x (Tile v)).set x2 Vacant
    | none => r
  | Tile _ => r

/-- The full Left merge scan over one row: the outer loop
`for x in 0..self.0.len()`. -/
def leftMergePass (r : Row) : Row := (List.range r.length).foldl leftMergeAt r

/-- The full Left compaction scan over one row. -/
def leftCompactPass (r : Row) : Row := (List.range r.length).foldl leftCompactAt r

/-- Processing of one row by `move(Left)`: merge scan then compaction. -/
def leftLine (r : Row) : Row := leftCompactPass (leftMergePass r)

/-- One iteration of the Right merge scan (lib.rs `MoveDirection::Right`,
first inner loop), scanning leftward. -/
def rightMergeAt (r : Row) (x : Nat) : Row :=
  match r.getD x Vacant with
  | Tile t =>
    match firstTileBelow r x with
    | some (x2, t2) =>
      if t2 = t then (r.set x (Tile (t * 2))).set x2 Vacant else r
    | none => r
  | Vacant => r

/-- One iteration of the Right compaction scan (lib.rs
`MoveDirection::Right`, second inner loop): swap the Vacant cell `x` with
the nearest tile to its left. -/
def rightCompactAt (r : Row) (x : Nat) : Row :=
  match r.getD x Vacant with
  | Vacant =>
    match firstTileBelow r x with
    | some (x2, v) => (r.set x (Tile v)).set x2 Vacant
    | none => r
  | Tile _ => r

/-- The full Right merge scan over one row: the outer loop
`for x in (0..self.0.len()).rev()`. -/
def rightMergePass (r : Row) : Row :=
  (List.range r.length).reverse.foldl rightMergeAt r

/-- The full Right compaction scan over one row. -/
def rightCompactPass (r : Row) : Row :=
  (List.range r.length).reverse.foldl rightCompactAt r

/-- Processing of one row by `move(Right)`: merge scan then compaction. -/
def rightLine (r : Row) : Row := rightCompactPass (rightMergePass r)

/-- One iteration of the Up merge scan on a column (lib.rs
`MoveDirection::Up`, first inner loop); same algorithm as the Left merge
scan, applied to the column. -/
def upMergeAt (c : Row) (y : Nat) : Row :=
  match c.getD y Vacant with
  | Tile t =>
    match firstTileFrom c (y + 1) with
    | some (y2, t2) =>
      if t2 = t then (c.set y (Tile (t * 2))).set y2 Vacant else c
    | none => c
  | Vacant => c

/-- One iteration of the Up compaction scan on a column (lib.rs
`MoveDirection::Up`, second inner loop): move the nearest tile below `y`
into the Vacant cell `y` by assignment. -/
def upCompactAt (c : Row) (y : Nat) : Row :=
  match c.getD y Vacant with
  | Vacant =>
    match firstTileFrom c (y + 1) with
    | some (y2, v) => (c.set y (Tile v)).set y2 Vacant
    | none => c
  | Tile _ => c

/-- The full Up merge scan over one column. -/
def upMergePass (c : Row) : Row := (List.range c.length).foldl upMergeAt c

/-- The full Up compaction scan over one column. -/
def upCompactPass (c : Row) : Row := (List.range c.length).foldl upCompactAt c

/-- Processing of one column by `move(Up)`: merge scan then compaction. -/
def upLine (c : Row) : Row := upCompactPass (upMergePass c)

/-- One iteration of the Down merge scan on a column (lib.rs
`MoveDirection::Down`, first inner loop), scanning upward. -/
def downMergeAt (c : Row) (y : Nat) : Row :=
  match c.getD y Vacant with
  | Tile t =>
    match firstTileBelow c y with
    | some (y2, t2) =>
      if t2 = t then (c.set y (Tile (t * 2))).set y2 Vacant else c
    | none => c
  | Vacant => c

/-- One iteration of the Down compaction scan on a column (lib.rs
`MoveDirection::Down`, second inner loop). -/
def downCompactAt (c : Row) (y : Nat) : Row :=
  match c.getD y Vacant with
  | Vacant =>
    match firstTileBelow c y with
    | some (y2, v) => (c.set y (Tile v)).set y2 Vacant
    | none => c
  | Tile _ => c

/-- The full Down merge scan over one column. -/
def downMergePass (c : Row) : Row :=
  (List.range c.length).reverse.foldl downMergeAt c

/-- The full Down compaction scan over one column. -/
def downCompactPass (c : Row) : Row :=
  (List.range c.length).reverse.foldl downCompactAt c

/-- Processing of one column by `move(Down)`: merge scan then compaction. -/
def downLine (c : Row) : Row := downCompactPass (downMergePass c)

/-- Cell access `self.0[y][x]`. -/
def getCell (g : Grid) (y x : Nat) : BoardSpace := (g.getD y []).getD x Vacant

/-- Column `x` of the grid, read top to bottom (the cells visited by the
`for y in 0..len` loops of the Up and Down blocks at a fixed `x`). -/
def col (g : Grid) (x : Nat) : Row :=
  [getCell g 0 x, getCell g 1 x, getCell g 2 x, getCell g 3 x]

/-- Reassemble a grid from its four columns. -/
def fromCols (c0 c1 c2 c3 : Row) : Grid :=
  [ [c0.getD 0 Vacant, c1.getD 0 Vacant, c2.getD 0 Vacant, c3.getD 0 Vacant],
    [c0.getD 1 Vacant, c1.getD 1 Vacant, c2.getD 1 Vacant, c3.getD 1 Vacant],
    [c0.getD 2 Vacant, c1.getD 2 Vacant, c2.getD 2 Vacant, c3.getD 2 Vacant],
    [c0.getD 3 Vacant, c1.getD 3 Vacant, c2.getD 3 Vacant, c3.getD 3 Vacant] ]

/-- `GameBoard::move` from lib.rs.  The Up and Down blocks iterate the
columns (`for x in 0..len` outermost); this is embedded by processing each
of the four columns and reassembling the grid. -/
def move : MoveDirection → Grid → Grid
  | MoveDirection.Up, g =>
    fromCols (upLine (col g 0)) (upLine (col g 1))
      (upLine (col g 2)) (upLine (col g 3))
  | MoveDirection.Down, g =>
    fromCols (downLine (col g 0)) (downLine (col g 1))
      (downLine (col g 2)) (downLine (col g 3))
  | MoveDirection.Left, g => g.map leftLine
  | MoveDirection.Right, g => g.map rightLine

/-- `GameBoard::empty`: all cells Vacant. -/
def emptyGrid : Grid :=
  [ [Vacant, Vacant, Vacant, Vacant],
    [Vacant, Vacant, Vacant, Vacant],
    [Vacant, Vacant, Vacant, Vacant],
    [Vacant, Vacant, Vacant, Vacant] ]

/-- `GameBoard::new` from lib.rs: despite its doc comment ("prefilled with
two tiles"), the body carries a TODO and returns the all-Vacant grid. -/
def newGrid : Grid :=
  [ [Vacant, Vacant, Vacant, Vacant],
    [Vacant, Vacant, Vacant, Vacant],
    [Vacant, Vacant, Vacant, Vacant],
    [Vacant, Vacant, Vacant, Vacant] ]

/-- `SAMPLE_GAME_BOARD` from the lib.rs test module. -/
def sampleBoard : Grid :=
  [ [Tile 2, Tile 2, Tile 2, Tile 2],
    [Tile 2, Tile 8, Tile 1, Vacant],
    [Vacant, Vacant, Vacant, Vacant],
    [Tile 2, Tile 4, Tile 1, Tile 2] ]


/-- The merge scan, restated as the specification words it: for each
occupied cell, working in the scan direction, examine the nearest
non-Vacant cell beyond it; if it is a Tile of equal value, double the value
in place and clear the matched cell to Vacant, and stop scanning this cell;
if it holds a different value, no merge happens for this cell.  A doubled
cell is emitted and never revisited, so every tile participates in at most
one merge per pass. -/
def mergeScanSpec : Row → Row
  | [] => []
  | Vacant :: rest => Vacant :: mergeScanSpec rest
  | Tile t :: rest =>
    match firstTileFrom rest 0 with
    | some (i, t2) =>
      if t2 = t then Tile (t * 2) :: mergeScanSpec (rest.set i Vacant)
      else Tile t :: mergeScanSpec rest
    | none => Tile t :: mergeScanSpec rest
termination_by r => r.length
decreasing_by
  all_goals simp [List.length_set]
  all_goals omega

/-- The compaction scan, restated recursively: each Vacant cell, working in
the scan direction, is filled with the nearest tile beyond it (which is
cleared); occupied cells are left in place. -/
def compactSpec : Row → Row
  | [] => []
  | Tile v :: rest => Tile v :: compactSpec rest
  | Vacant :: rest =>
    match firstTileFrom rest 0 with
    | some (i, v) => Tile v :: compactSpec (rest.set i Vacant)
    | none => Vacant :: compactSpec rest
termination_by r => r.length
decreasing_by
  all_goals simp [List.length_set]
  all_goals omega

/-- Recursive restatement of the whole slide-left pass. -/
def slideSpec (r : Row) : Row := compactSpec (mergeScanSpec r)


/-- The numeric value of a cell (Vacant counts 0). -/
def cellVal : BoardSpace → Nat
  | Vacant => 0
  | Tile n => n

/-- Number of occupied cells in a row. -/
def tileCountL (r : Row) : Nat := r.countP isTile

/-- Sum of the tile values in a row. -/
def sumTilesL (r : Row) : Nat := (r.map cellVal).sum

/-- Number of occupied cells on the grid. -/
def tileCountG (g : Grid) : Nat := (g.map tileCountL).sum

/-- Sum of all tile values on the grid. -/
def sumTilesG (g : Grid) : Nat := (g.map sumTilesL).sum


/-- Spec-side rotation primitive: one counter-clockwise quarter turn.  The
source has no rotation function (the four sweeps are written out directly);
this is the "Rotation Primitive" of the specification, used to state the
claimed equivalence. -/
def rotCCW (g : Grid) : Grid := [col g 3, col g 2, col g 1, col g 0]

/-- `times` applications of the quarter-turn rotation. -/
def rotN : Nat → Grid → Grid
  | 0, g => g
  | k + 1, g => rotN k (rotCCW g)

/-- The spec's fixed quarter-turn count per direction:
{Left:0, Up:1, Right:2, Down:3}. -/
def rotCount : MoveDirection → Nat
  | MoveDirection.Left => 0
  | MoveDirection.Up => 1
  | MoveDirection.Right => 2
  | MoveDirection.Down => 3

/-- The spec's description of `move`: rotate by the direction's quarter-turn
count, run the single slide-left pass on every row, rotate back by the
complementary amount. -/
def moveViaRotation (d : MoveDirection) (g : Grid) : Grid :=
  rotN ((4 - rotCount d) % 4) ((rotN (rotCount d) g).map leftLine)

/-- `EXPECTED` of the `move_up` test in lib.rs. -/
def moveUpExpected : Grid :=
  [ [Tile 4, Tile 2, Tile 2, Tile 4],
    [Tile 2, Tile 8, Tile 2, Vacant],
    [Vacant, Tile 4, Vacant, Vacant],
    [Vacant, Vacant, Vacant, Vacant] ]

/-- `EXPECTED` of the `move_down` test in lib.rs. -/
def moveDownExpected : Grid :=
  [ [Vacant, Vacant, Vacant, Vacant],
    [Vacant, Tile 2, Vacant, Vacant],
    [Tile 2, Tile 8, Tile 2, Vacant],
    [Tile 4, Tile 4, Tile 2, Tile 4] ]

/-- `EXPECTED` of the `move_left` test in lib.rs. -/
def moveLeftExpected : Grid :=
  [ [Tile 4, Tile 4, Vacant, Vacant],
    [Tile 2, Tile 8, Tile 1, Vacant],
    [Vacant, Vacant, Vacant, Vacant],
    [Tile 2, Tile 4, Tile 1, Tile 2] ]

/-- `EXPECTED` of the `move_right` test in lib.rs. -/
def moveRightExpected : Grid :=
  [ [Vacant, Vacant, Tile 4, Tile 4],
    [Vacant, Tile 2, Tile 8, Tile 1],
    [Vacant, Vacant, Vacant, Vacant],
    [Tile 2, Tile 4, Tile 1, Tile 2] ]


/-- A movable adjacent pair, per the spec's loss scan: (Vacant, anything),
(anything, Vacant), or (equal, equal). -/
def pairMovable (a b : BoardSpace) : Prop := a = Vacant ∨ b = Vacant ∨ a = b

instance (a b : BoardSpace) : Decidable (pairMovable a b) :=
  inferInstanceAs (Decidable (_ ∨ _ ∨ _))

/-- A line with no movable adjacent pair. -/
def rowStuck (r : Row) : Prop := List.Chain' (fun a b => ¬ pairMovable a b) r

/-- Every row of the grid is stuck. -/
def rowsStuck (g : Grid) : Prop := ∀ r ∈ g, rowStuck r

/-- Modelled from the spec: `has_lost()` is absent from the lib.rs snapshot
(its in-repo caller discord-2048/src/main.rs calls `game.has_lost()`).  The
spec defines it as: true iff for every rotation of the grid, scanning all
adjacent horizontal pairs, none is (Vacant, anything), (anything, Vacant),
or (equal, equal).  It is a pure function of the grid, so checking it does
not mutate the caller's grid. -/
def hasLost (g : Grid) : Prop :=
  rowsStuck g ∧ rowsStuck (rotCCW g) ∧ rowsStuck (rotCCW (rotCCW g)) ∧
    rowsStuck (rotCCW (rotCCW (rotCCW g)))

def rowStuckDecidable : (r : Row) → Decidable (rowStuck r)
  | [] => isTrue List.chain'_nil
  | [a] => isTrue (List.chain'_singleton a)
  | a :: b :: rest =>
    haveI := rowStuckDecidable (b :: rest)
    decidable_of_iff (¬ pairMovable a b ∧ rowStuck (b :: rest))
      (Iff.symm (@List.chain'_cons _ (fun x y => ¬ pairMovable x y) a b rest))

instance (r : Row) : Decidable (rowStuck r) := rowStuckDecidable r

instance (g : Grid) : Decidable (rowsStuck g) :=
  inferInstanceAs (Decidable (∀ r ∈ g, rowStuck r))

instance (g : Grid) : Decidable (hasLost g) :=
  inferInstanceAs (Decidable (_ ∧ _ ∧ _ ∧ _))

/-- Two adjacent cells holding equal Tile values. -/
def adjEqP (a b : BoardSpace) : Prop := isTile a ∧ a = b

instance (a b : BoardSpace) : Decidable (adjEqP a b) :=
  inferInstanceAs (Decidable (_ ∧ _))

/-- A line with no two adjacent equal Tile values. -/
def noAdjRow (r : Row) : Prop := List.Chain' (fun a b => ¬ adjEqP a b) r

def noAdjRowDecidable : (r : Row) → Decidable (noAdjRow r)
  | [] => isTrue List.chain'_nil
  | [a] => isTrue (List.chain'_singleton a)
  | a :: b :: rest =>
    haveI := noAdjRowDecidable (b :: rest)
    decidable_of_iff (¬ adjEqP a b ∧ noAdjRow (b :: rest))
      (Iff.symm (@List.chain'_cons _ (fun x y => ¬ adjEqP x y) a b rest))

instance (r : Row) : Decidable (noAdjRow r) := noAdjRowDecidable r

/-- No Vacant cell on the grid. -/
def fullGrid (g : Grid) : Prop := ∀ r ∈ g, ∀ c ∈ r, c ≠ Vacant

/-- No two horizontally or vertically adjacent equal Tile values: no row
and none of the four columns has an adjacent equal pair. -/
def noAdjEq (g : Grid) : Prop :=
  (∀ r ∈ g, noAdjRow r) ∧ noAdjRow (col g 0) ∧ noAdjRow (col g 1) ∧
    noAdjRow (col g 2) ∧ noAdjRow (col g 3)

/-- The grid holds at least one Tile. -/
def hasTileG (g : Grid) : Prop := ∃ r ∈ g, ∃ c ∈ r, isTile c

instance (g : Grid) : Decidable (fullGrid g) :=
  inferInstanceAs (Decidable (∀ r ∈ g, ∀ c ∈ r, c ≠ Vacant))

instance (g : Grid) : Decidable (noAdjEq g) :=
  inferInstanceAs (Decidable (_ ∧ _ ∧ _ ∧ _ ∧ _))

instance (g : Grid) : Decidable (hasTileG g) :=
  inferInstanceAs (Decidable (∃ r ∈ g, ∃ c ∈ r, isTile c))


/-- A full board with no adjacent equal values: a genuine loss state. -/
def lostBoard : Grid :=
  [ [Tile 2, Tile 4, Tile 2, Tile 4],
    [Tile 4, Tile 2, Tile 4, Tile 2],
    [Tile 2, Tile 4, Tile 2, Tile 4],
    [Tile 4, Tile 2, Tile 4, Tile 2] ]


/-- All sixteen coordinates (y, x) of the 4x4 grid, row-major. -/
def allCoords : List (Nat × Nat) :=
  [ (0, 0), (0, 1), (0, 2), (0, 3),
    (1, 0), (1, 1), (1, 2), (1, 3),
    (2, 0), (2, 1), (2, 2), (2, 3),
    (3, 0), (3, 1), (3, 2), (3, 3) ]

/-- Writing one cell, `self.set((x, y), val)`. -/
def setCell (g : Grid) (y x : Nat) (v : BoardSpace) : Grid :=
  g.set y ((g.getD y []).set x v)

/-- The Vacant coordinates of the grid, row-major. -/
def vacantCoords (g : Grid) : List (Nat × Nat) :=
  allCoords.filter fun p => getCell g p.1 p.2 == Vacant

/-- Modelled from the spec: the random tile spawn is absent from the lib.rs
snapshot.  Per the spec: collect all Vacant coordinates; if none, no-op;
otherwise choose one uniformly at random among them (the random index is
injected as `rnd`, reduced modulo the number of candidates) and set it to
Tile 4 with probability 1/10, else Tile 2 (the outcome of that coin is
injected as `four`). -/
def spawnTile (g : Grid) (rnd : Nat) (four : Bool) : Grid :=
  let vs := vacantCoords g
  if vs.isEmpty then g
  else
    let p := vs.getD (rnd % vs.length) (0, 0)
    setCell g p.1 p.2 (Tile (if four then 4 else 2))

/-- Modelled from the spec: a move followed by the conditional spawn.  "If
and only if the move changed at least one cell's value or position, spawn
exactly one new random tile afterward." -/
def moveSpawn (d : MoveDirection) (g : Grid) (rnd : Nat) (four : Bool) : Grid :=
  let g2 := move d g
  if g2 = g then g2 else spawnTile g2 rnd four

/-- Modelled from the spec: the Left merge step instrumented with the score
("add the doubled value to score"); the grid effect is exactly
`leftMergeAt`.  The score accumulator is absent from the lib.rs snapshot
(discord-2048/src/main.rs reads `game.score`). -/
def leftMergeAtS (rs : Row × Nat) (x : Nat) : Row × Nat :=
  match rs.1.getD x Vacant with
  | Tile t =>
    match firstTileFrom rs.1 (x + 1) with
    | some (x2, t2) =>
      if t2 = t then ((rs.1.set x (Tile (t * 2))).set x2 Vacant, rs.2 + t * 2)
      else rs
    | none => rs
  | Vacant => rs

/-- Modelled from the spec: the Right merge step instrumented with the
score. -/
def rightMergeAtS (rs : Row × Nat) (x : Nat) : Row × Nat :=
  match rs.1.getD x Vacant with
  | Tile t =>
    match firstTileBelow rs.1 x with
    | some (x2, t2) =>
      if t2 = t then ((rs.1.set x (Tile (t * 2))).set x2 Vacant, rs.2 + t * 2)
      else rs
    | none => rs
  | Vacant => rs

/-- The instrumented Left merge scan over one line. -/
def leftMergePassS (r : Row) (s : Nat) : Row × Nat :=
  (List.range r.length).foldl leftMergeAtS (r, s)

/-- The instrumented Right merge scan over one line. -/
def rightMergePassS (r : Row) (s : Nat) : Row × Nat :=
  (List.range r.length).reverse.foldl rightMergeAtS (r, s)

/-- One line processed leftward with the score threaded through: the
instrumented merge scan, then the (score-free) compaction. -/
def lineScoreL (r : Row) (s : Nat) : Row × Nat :=
  (leftCompactPass (leftMergePassS r s).1, (leftMergePassS r s).2)

/-- One line processed rightward with the score threaded through. -/
def lineScoreR (r : Row) (s : Nat) : Row × Nat :=
  (rightCompactPass (rightMergePassS r s).1, (rightMergePassS r s).2)

/-- The rows of a grid processed in order with the score threaded. -/
def linesScore (f : Row → Nat → Row × Nat) : List Row → Nat → List Row × Nat
  | [], s => ([], s)
  | r :: rest, s =>
    let p := f r s
    let q := linesScore f rest p.2
    (p.1 :: q.1, q.2)

/-- Modelled from the spec: `move` instrumented with the score
accumulator; each merge of two tiles of value t adds t * 2, nothing else
touches the score. -/
def moveScore : MoveDirection → Grid → Nat → Grid × Nat
  | MoveDirection.Left, g, s => linesScore lineScoreL g s
  | MoveDirection.Right, g, s => linesScore lineScoreR g s
  | MoveDirection.Up, g, s =>
    let p0 := lineScoreL (col g 0) s
    let p1 := lineScoreL (col g 1) p0.2
    let p2 := lineScoreL (col g 2) p1.2
    let p3 := lineScoreL (col g 3) p2.2
    (fromCols p0.1 p1.1 p2.1 p3.1, p3.2)
  | MoveDirection.Down, g, s =>
    let p0 := lineScoreR (col g 0) s
    let p1 := lineScoreR (col g 1) p0.2
    let p2 := lineScoreR (col g 2) p1.2
    let p3 := lineScoreR (col g 3) p2.2
    (fromCols p0.1 p1.1 p2.1 p3.1, p3.2)
/-- The zero-width-space sentinel `ZWS` from discord-2048/src/main.rs, as
the list of Unicode code points of the string (U+200B). -/
def zws : List Nat := [8203]

/-- The code points of the score marker `"**Score:** "` (`SCORE_PREFIX` in
discord-2048/src/main.rs `handle_button`). -/
def scorePrefix : List Nat := [42, 42, 83, 99, 111, 114, 101, 58, 42, 42, 32]

/-- The code points of `"**Game Over!**\n> "`, the text placed before the
score marker when the game is over (discord-2048/src/main.rs
`handle_button`). -/
def gameOverPrefix : List Nat :=
  [42, 42, 71, 97, 109, 101, 32, 79, 118, 101, 114, 33, 42, 42, 10, 62, 32]

/-- ASCII decimal digit test on a code point. -/
def isDigitC (c : Nat) : Bool := 48 ≤ c && c ≤ 57

/-- `usize::to_string`: the decimal digit characters of `n`, most
significant first. -/
def natChars (n : Nat) : List Nat :=
  if n = 0 then [48] else (Nat.digits 10 n).reverse.map fun d => 48 + d

/-- The digit-run part of `str::parse::<usize>`: a non-empty all-digit
string evaluates most-significant-first; anything else is a parse error. -/
def parseDigits (cs : List Nat) : Option Nat :=
  if cs.isEmpty then none
  else if cs.all isDigitC then
    some (cs.foldl (fun a c => a * 10 + (c - 48)) 0)
  else none

/-- `str::parse::<usize>` on a list of code points: an optional leading
`+` sign (code 43) followed by a non-empty run of decimal digits. -/
def parseNat (cs : List Nat) : Option Nat :=
  match cs with
  | c :: rest => if c = 43 then parseDigits rest else parseDigits (c :: rest)
  | [] => none

/-- Whitespace test used by `str::trim` for the characters that occur in
this codec (all content built here is ASCII plus the non-whitespace
U+200B); Rust trims the full Unicode White_Space set, which agrees with
this test on such content. -/
def isWs (c : Nat) : Bool := c = 32 || c = 9 || c = 10 || c = 13

/-- `str::trim`: remove leading and trailing whitespace. -/
def trimL (l : List Nat) : List Nat :=
  ((l.dropWhile isWs).reverse.dropWhile isWs).reverse

/-- `str::find` followed by slicing off the found pattern:
`content[(start + pat.len())..]` for the first occurrence of `pat`, or
`none` when the pattern does not occur. -/
def findAfter (pat : List Nat) : List Nat → Option (List Nat)
  | [] => if pat.isPrefixOf ([] : List Nat) then some [] else none
  | c :: rest =>
    if pat.isPrefixOf (c :: rest) then some ((c :: rest).drop pat.length)
    else findAfter pat rest

/-- The score read back by `handle_button`: locate `"**Score:** "` in the
message content, take the text after it, trim it, parse it, and default to
0 on a missing marker or a parse failure (`unwrap_or(0)`). -/
def decodeScore (content : List Nat) : Nat :=
  match findAfter scorePrefix content with
  | none => 0
  | some rest => (parseNat (trimL rest)).getD 0

/-- A button label as rendered by `game_board_to_msg_components`: the
decimal string of a tile value, or the zero-width space for a vacant
cell. -/
def encodeCell : BoardSpace → List Nat
  | Vacant => zws
  | Tile n => natChars n

/-- One rendered action row of cell buttons: every cell button carries a
label. -/
def encodeRowLabels (r : Row) : List (Option (List Nat)) :=
  r.map fun c => some (encodeCell c)

/-- The control action row appended by `game_board_to_msg_components`:
four emoji buttons with `label: None`. -/
def controlRow : List (Option (List Nat)) := [none, none, none, none]

/-- The component rows of the rendered message: the four cell rows, then
the control row. -/
def encodeComponents (g : Grid) : List (List (Option (List Nat))) :=
  g.map encodeRowLabels ++ [controlRow]

/-- The message content written by `handle_button`: `"**Score:** {}"`, or
`"**Game Over!**\n> **Score:** {}"` when the game is over. -/
def encodeContent (score : Nat) (lost : Bool) : List Nat :=
  (if lost then gameOverPrefix else []) ++ scorePrefix ++ natChars score

/-- The parts of a rendered Discord message that the codec touches: its
component rows (each a list of optional button labels) and its text
content. -/
structure Msg where
  components : List (List (Option (List Nat)))
  content : List Nat

/-- The full rendering of a game state into a message
(`game_board_to_msg_components` plus the content format strings). -/
def encodeMsg (g : Grid) (score : Nat) (lost : Bool) : Msg :=
  ⟨encodeComponents g, encodeContent score lost⟩

/-- Reading one button label back in `handle_button`: the zero-width
space is a vacant cell, anything else must parse as a tile value
(`t.parse::<usize>().unwrap()`; the fallible parse is an `Option`). -/
def decodeCell (l : List Nat) : Option BoardSpace :=
  if l = zws then some Vacant else (parseNat l).map Tile

/-- Reading one component row back: every button must carry a label and
every label must decode. -/
def decodeLabels : List (Option (List Nat)) → Option Row
  | [] => some []
  | none :: _ => none
  | some l :: rest =>
    match decodeCell l, decodeLabels rest with
    | some c, some cs => some (c :: cs)
    | _, _ => none

/-- Reading a list of component rows back cell by cell. -/
def decodeRows : List (List (Option (List Nat))) → Option Grid
  | [] => some []
  | row :: rest =>
    match decodeLabels row, decodeRows rest with
    | some r, some rs => some (r :: rs)
    | _, _ => none

/-- The grid-and-score reconstruction at the top of `handle_button`: the
grid from the labels of `msg.components[0..4]`, the score from the
message content. -/
def decodeMsg (m : Msg) : Option (Grid × Nat) :=
  match decodeRows (m.components.take 4) with
  | some rows => some (rows, decodeScore m.content)
  | none => none

-- ===== theorems =====

theorem firstTileAux_succ (l : List BoardSpace) :
    ∀ i, firstTileAux l (i + 1) =
      (firstTileAux l i).map (fun p => (p.1 + 1, p.2)) := by
  induction l with
  | nil => intro i; rfl
  | cons a l ih =>
    intro i
    cases a with
    | Vacant => simpa [firstTileAux] using ih (i + 1)
    | Tile v => rfl

theorem firstTileFrom_cons_succ (A : BoardSpace) (r : Row) (x : Nat) :
    firstTileFrom (A :: r) (x + 1) =
      (firstTileFrom r x).map (fun p => (p.1 + 1, p.2)) := by
  simp [firstTileFrom, firstTileAux_succ]

theorem leftMergeAt_cons (A : BoardSpace) (r : Row) (x : Nat) :
    leftMergeAt (A :: r) (x + 1) = A :: leftMergeAt r x := by
  unfold leftMergeAt
  rw [List.getD_cons_succ]
  cases r.getD x Vacant with
  | Vacant => rfl
  | Tile t =>
    rw [show x + 1 + 1 = x + 1 + 1 from rfl, firstTileFrom_cons_succ]
    cases firstTileFrom r (x + 1) with
    | none => rfl
    | some p =>
      obtain ⟨x2, t2⟩ := p
      by_cases ht : t2 = t <;> simp [ht, List.set_cons_succ]

theorem leftCompactAt_cons (A : BoardSpace) (r : Row) (x : Nat) :
    leftCompactAt (A :: r) (x + 1) = A :: leftCompactAt r x := by
  unfold leftCompactAt
  rw [List.getD_cons_succ]
  cases r.getD x Vacant with
  | Tile t => rfl
  | Vacant =>
    rw [firstTileFrom_cons_succ]
    cases firstTileFrom r x with
    | none => rfl
    | some p =>
      obtain ⟨x2, v⟩ := p
      simp [List.set_cons_succ]

theorem foldl_cons_shift (f : Row → Nat → Row)
    (hf : ∀ A r x, f (A :: r) (x + 1) = A :: f r x) :
    ∀ (xs : List Nat) (A : BoardSpace) (r : Row),
      (xs.map Nat.succ).foldl f (A :: r) = A :: xs.foldl f r := by
  intro xs
  induction xs with
  | nil => intro A r; rfl
  | cons x xs ih =>
    intro A r
    simp only [List.map_cons, List.foldl_cons, Nat.succ_eq_add_one, hf, ih]

theorem firstTileFrom_vacant_cons (r : Row) :
    firstTileFrom (Vacant :: r) 0 =
      (firstTileFrom r 0).map (fun p => (p.1 + 1, p.2)) := by
  show firstTileAux r 1 = (firstTileAux r 0).map _
  exact firstTileAux_succ r 0

theorem leftMergePass_cons (A : BoardSpace) (r : Row) :
    leftMergePass (A :: r) =
      match A with
      | Vacant => Vacant :: leftMergePass r
      | Tile t =>
        match firstTileFrom r 0 with
        | some (i, t2) =>
          if t2 = t then Tile (t * 2) :: leftMergePass (r.set i Vacant)
          else Tile t :: leftMergePass r
        | none => Tile t :: leftMergePass r := by
  show (List.range (r.length + 1)).foldl leftMergeAt (A :: r) = _
  rw [List.range_succ_eq_map, List.foldl_cons]
  cases A with
  | Vacant =>
    have h0 : leftMergeAt (Vacant :: r) 0 = Vacant :: r := rfl
    rw [h0, foldl_cons_shift leftMergeAt leftMergeAt_cons]
    rfl
  | Tile t =>
    have h0 : leftMergeAt (Tile t :: r) 0 =
        match firstTileFrom r 0 with
        | some (i, t2) =>
          if t2 = t then Tile (t * 2) :: r.set i Vacant
          else Tile t :: r
        | none => Tile t :: r := by
      unfold leftMergeAt
      rw [List.getD_cons_zero]
      rw [show (0 : Nat) + 1 = 0 + 1 from rfl, firstTileFrom_cons_succ]
      cases firstTileFrom r 0 with
      | none => rfl
      | some p =>
        obtain ⟨i, t2⟩ := p
        by_cases ht : t2 = t <;> simp [ht, List.set_cons_succ]
    rw [h0]
    cases h : firstTileFrom r 0 with
    | none =>
      rw [foldl_cons_shift leftMergeAt leftMergeAt_cons]
      rfl
    | some p =>
      obtain ⟨i, t2⟩ := p
      by_cases ht : t2 = t
      · simp only [if_pos ht]
        rw [foldl_cons_shift leftMergeAt leftMergeAt_cons]
        have hl : List.range r.length = List.range (r.set i Vacant).length := by
          rw [List.length_set]
        rw [hl]
        rfl
      · simp only [if_neg ht]
        rw [foldl_cons_shift leftMergeAt leftMergeAt_cons]
        rfl

theorem leftCompactPass_cons (A : BoardSpace) (r : Row) :
    leftCompactPass (A :: r) =
      match A with
      | Tile v => Tile v :: leftCompactPass r
      | Vacant =>
        match firstTileFrom r 0 with
        | some (i, v) => Tile v :: leftCompactPass (r.set i Vacant)
        | none => Vacant :: leftCompactPass r := by
  show (List.range (r.length + 1)).foldl leftCompactAt (A :: r) = _
  rw [List.range_succ_eq_map, List.foldl_cons]
  cases A with
  | Tile v =>
    have h0 : leftCompactAt (Tile v :: r) 0 = Tile v :: r := rfl
    rw [h0, foldl_cons_shift leftCompactAt leftCompactAt_cons]
    rfl
  | Vacant =>
    have h0 : leftCompactAt (Vacant :: r) 0 =
        match firstTileFrom r 0 with
        | some (i, v) => Tile v :: r.set i Vacant
        | none => Vacant :: r := by
      unfold leftCompactAt
      rw [List.getD_cons_zero, firstTileFrom_vacant_cons]
      cases firstTileFrom r 0 with
      | none => rfl
      | some p =>
        obtain ⟨i, v⟩ := p
        simp [List.set_cons_succ]
    rw [h0]
    cases h : firstTileFrom r 0 with
    | none =>
      rw [foldl_cons_shift leftCompactAt leftCompactAt_cons]
      rfl
    | some p =>
      obtain ⟨i, v⟩ := p
      rw [foldl_cons_shift leftCompactAt leftCompactAt_cons]
      have hl : List.range r.length = List.range (r.set i Vacant).length := by
        rw [List.length_set]
      rw [hl]
      rfl

theorem leftMergePass_eq_spec : ∀ r : Row, leftMergePass r = mergeScanSpec r := by
  have key : ∀ n (r : Row), r.length ≤ n → leftMergePass r = mergeScanSpec r := by
    intro n
    induction n with
    | zero =>
      intro r h
      rw [List.length_eq_zero.mp (Nat.le_zero.mp h)]
      simp [leftMergePass, mergeScanSpec]
    | succ n ih =>
      intro r h
      cases r with
      | nil => simp [leftMergePass, mergeScanSpec]
      | cons A rest =>
        rw [leftMergePass_cons]
        cases A with
        | Vacant =>
          rw [mergeScanSpec]
          simp only [List.length_cons, Nat.succ_le_succ_iff] at h
          rw [ih rest h]
        | Tile t =>
          rw [mergeScanSpec]
          simp only [List.length_cons, Nat.succ_le_succ_iff] at h
          cases hf : firstTileFrom rest 0 with
          | none => simp only [ih rest h]
          | some p =>
            obtain ⟨i, t2⟩ := p
            by_cases ht : t2 = t
            · simp only [if_pos ht]
              rw [ih (rest.set i Vacant) (by rw [List.length_set]; exact h)]
            · simp only [if_neg ht]
              rw [ih rest h]
  exact fun r => key r.length r le_rfl

theorem leftCompactPass_eq_spec : ∀ r : Row, leftCompactPass r = compactSpec r := by
  have key : ∀ n (r : Row), r.length ≤ n → leftCompactPass r = compactSpec r := by
    intro n
    induction n with
    | zero =>
      intro r h
      rw [List.length_eq_zero.mp (Nat.le_zero.mp h)]
      simp [leftCompactPass, compactSpec]
    | succ n ih =>
      intro r h
      cases r with
      | nil => simp [leftCompactPass, compactSpec]
      | cons A rest =>
        rw [leftCompactPass_cons]
        cases A with
        | Tile v =>
          rw [compactSpec]
          simp only [List.length_cons, Nat.succ_le_succ_iff] at h
          rw [ih rest h]
        | Vacant =>
          rw [compactSpec]
          simp only [List.length_cons, Nat.succ_le_succ_iff] at h
          cases hf : firstTileFrom rest 0 with
          | none => simp only [ih rest h]
          | some p =>
            obtain ⟨i, v⟩ := p
            simp only
            rw [ih (rest.set i Vacant) (by rw [List.length_set]; exact h)]
  exact fun r => key r.length r le_rfl

theorem leftLine_eq_slideSpec (r : Row) : leftLine r = slideSpec r := by
  rw [leftLine, slideSpec, leftMergePass_eq_spec, leftCompactPass_eq_spec]

theorem leftMergeAt_length (r : Row) (x : Nat) :
    (leftMergeAt r x).length = r.length := by
  unfold leftMergeAt
  cases r.getD x Vacant with
  | Vacant => rfl
  | Tile t =>
    cases firstTileFrom r (x + 1) with
    | none => rfl
    | some p =>
      obtain ⟨x2, t2⟩ := p
      by_cases ht : t2 = t <;> simp [ht, List.length_set]

theorem leftCompactAt_length (r : Row) (x : Nat) :
    (leftCompactAt r x).length = r.length := by
  unfold leftCompactAt
  cases r.getD x Vacant with
  | Tile t => rfl
  | Vacant =>
    cases firstTileFrom r x with
    | none => rfl
    | some p =>
      obtain ⟨x2, v⟩ := p
      simp [List.length_set]

theorem rightMergeAt_length (r : Row) (x : Nat) :
    (rightMergeAt r x).length = r.length := by
  unfold rightMergeAt
  cases r.getD x Vacant with
  | Vacant => rfl
  | Tile t =>
    cases firstTileBelow r x with
    | none => rfl
    | some p =>
      obtain ⟨x2, t2⟩ := p
      by_cases ht : t2 = t <;> simp [ht, List.length_set]

theorem rightCompactAt_length (r : Row) (x : Nat) :
    (rightCompactAt r x).length = r.length := by
  unfold rightCompactAt
  cases r.getD x Vacant with
  | Tile t => rfl
  | Vacant =>
    cases firstTileBelow r x with
    | none => rfl
    | some p =>
      obtain ⟨x2, v⟩ := p
      simp [List.length_set]

theorem foldl_length_inv (f : Row → Nat → Row)
    (hf : ∀ r x, (f r x).length = r.length) :
    ∀ (xs : List Nat) (r : Row), (xs.foldl f r).length = r.length := by
  intro xs
  induction xs with
  | nil => intro r; rfl
  | cons x xs ih => intro r; rw [List.foldl_cons, ih, hf]

theorem leftMergePass_length (r : Row) : (leftMergePass r).length = r.length :=
  foldl_length_inv leftMergeAt leftMergeAt_length _ r

theorem leftLine_length (r : Row) : (leftLine r).length = r.length := by
  rw [leftLine, leftCompactPass,
    foldl_length_inv leftCompactAt leftCompactAt_length, leftMergePass_length]

theorem rightLine_length (r : Row) : (rightLine r).length = r.length := by
  rw [rightLine, rightCompactPass,
    foldl_length_inv rightCompactAt rightCompactAt_length, rightMergePass,
    foldl_length_inv rightMergeAt rightMergeAt_length]

theorem upMergeAt_eq_left : upMergeAt = leftMergeAt := rfl

theorem downMergeAt_eq_right : downMergeAt = rightMergeAt := rfl

theorem downCompactAt_eq_right : downCompactAt = rightCompactAt := rfl

theorem downLine_eq_rightLine : downLine = rightLine := rfl

theorem firstTileFrom_of_vacant (c : Row) (x : Nat)
    (h : c.getD x Vacant = Vacant) :
    firstTileFrom c x = firstTileFrom c (x + 1) := by
  by_cases hx : x < c.length
  · unfold firstTileFrom
    rw [List.drop_eq_getElem_cons hx]
    rw [List.getD_eq_getElem c Vacant hx] at h
    rw [h]
    rfl
  · unfold firstTileFrom
    rw [List.drop_eq_nil_of_le (Nat.le_of_not_lt hx),
      List.drop_eq_nil_of_le (Nat.le_succ_of_le (Nat.le_of_not_lt hx))]
    rfl

theorem upCompactAt_eq_left : upCompactAt = leftCompactAt := by
  funext c x
  unfold upCompactAt leftCompactAt
  cases h : c.getD x Vacant with
  | Tile t => rfl
  | Vacant => rw [firstTileFrom_of_vacant c x h]

theorem upLine_eq_leftLine : upLine = leftLine := by
  funext c
  rw [upLine, leftLine, upCompactPass, upMergePass, leftCompactPass, leftMergePass,
    upMergeAt_eq_left, upCompactAt_eq_left,
    foldl_length_inv leftMergeAt leftMergeAt_length]

theorem getD_reverse (r : Row) (i : Nat) (h : i < r.length) :
    r.reverse.getD i Vacant = r.getD (r.length - 1 - i) Vacant := by
  rw [List.getD_eq_getElem r.reverse Vacant (by simpa using h),
    List.getElem_reverse, List.getD_eq_getElem r Vacant (by omega)]

theorem reverse_set (r : Row) (i : Nat) (h : i < r.length) (v : BoardSpace) :
    (r.set i v).reverse = r.reverse.set (r.length - 1 - i) v := by
  apply List.ext_getElem
  · simp
  · intro j h1 h2
    have hj : j < r.length := by simpa using h1
    simp only [List.getElem_reverse, List.getElem_set, List.length_set,
      List.length_reverse]
    split_ifs with hc1 hc2 hc2
    · rfl
    · exfalso; omega
    · exfalso; omega
    · rfl

theorem drop_eq_getD_cons (l : Row) (n : Nat) (h : n < l.length) :
    l.drop n = l.getD n Vacant :: l.drop (n + 1) := by
  rw [List.drop_eq_getElem_cons h, List.getD_eq_getElem l Vacant h]

theorem firstTileBelow_rev (r : Row) :
    ∀ x, x ≤ r.length →
      firstTileFrom r.reverse (r.length - x) =
        (firstTileBelow r x).map (fun p => (r.length - 1 - p.1, p.2)) := by
  intro x
  induction x with
  | zero =>
    intro _
    rw [Nat.sub_zero]
    unfold firstTileFrom
    rw [← List.length_reverse r, List.drop_length]
    rfl
  | succ x ih =>
    intro hx
    have hlt : r.length - (x + 1) < r.reverse.length := by
      rw [List.length_reverse]; omega
    unfold firstTileFrom
    rw [drop_eq_getD_cons _ _ hlt, getD_reverse r _ (by omega)]
    have e1 : r.length - 1 - (r.length - (x + 1)) = x := by omega
    rw [e1]
    rw [firstTileBelow]
    cases hc : r.getD x Vacant with
    | Tile v =>
      simp only [firstTileAux, Option.map_some']
      congr 2
      omega
    | Vacant =>
      simp only [firstTileAux]
      have e2 : r.length - (x + 1) + 1 = r.length - x := by omega
      rw [e2]
      exact ih (by omega)

theorem firstTileBelow_lt (r : Row) :
    ∀ x p, firstTileBelow r x = some p → p.1 < x := by
  intro x
  induction x with
  | zero => intro p h; cases h
  | succ x ih =>
    intro p h
    rw [firstTileBelow] at h
    split at h
    · cases h
      exact Nat.lt_succ_self x
    · exact Nat.lt_succ_of_lt (ih p h)

theorem rightMergeAt_rev (r : Row) (x : Nat) (hx : x < r.length) :
    rightMergeAt r x = (leftMergeAt r.reverse (r.length - 1 - x)).reverse := by
  unfold rightMergeAt leftMergeAt
  have hgd : r.reverse.getD (r.length - 1 - x) Vacant = r.getD x Vacant := by
    rw [getD_reverse r _ (by omega)]
    congr 1
    omega
  rw [hgd]
  cases hc : r.getD x Vacant with
  | Vacant => simp
  | Tile t =>
    have harith : r.length - 1 - x + 1 = r.length - x := by omega
    rw [harith, firstTileBelow_rev r x (by omega)]
    cases hb : firstTileBelow r x with
    | none => simp
    | some p =>
      obtain ⟨x2, t2⟩ := p
      have hx2 : x2 < x := firstTileBelow_lt r x _ hb
      simp only [Option.map_some']
      by_cases ht : t2 = t
      · simp only [if_pos ht]
        rw [← reverse_set r x hx (Tile (t * 2))]
        have hlen : (r.set x (Tile (t * 2))).length = r.length := List.length_set r x _
        rw [show r.length - 1 - x2 = (r.set x (Tile (t * 2))).length - 1 - x2 by rw [hlen]]
        rw [← reverse_set (r.set x (Tile (t * 2))) x2 (by rw [hlen]; omega) Vacant]
        rw [List.reverse_reverse]
      · simp only [if_neg ht]
        simp

theorem rightCompactAt_rev (r : Row) (x : Nat) (hx : x < r.length) :
    rightCompactAt r x = (upCompactAt r.reverse (r.length - 1 - x)).reverse := by
  unfold rightCompactAt upCompactAt
  have hgd : r.reverse.getD (r.length - 1 - x) Vacant = r.getD x Vacant := by
    rw [getD_reverse r _ (by omega)]
    congr 1
    omega
  rw [hgd]
  cases hc : r.getD x Vacant with
  | Tile t => simp
  | Vacant =>
    have harith : r.length - 1 - x + 1 = r.length - x := by omega
    rw [harith, firstTileBelow_rev r x (by omega)]
    cases hb : firstTileBelow r x with
    | none => simp
    | some p =>
      obtain ⟨x2, v⟩ := p
      have hx2 : x2 < x := firstTileBelow_lt r x _ hb
      simp only [Option.map_some']
      rw [← reverse_set r x hx (Tile v)]
      have hlen : (r.set x (Tile v)).length = r.length := List.length_set r x _
      rw [show r.length - 1 - x2 = (r.set x (Tile v)).length - 1 - x2 by rw [hlen]]
      rw [← reverse_set (r.set x (Tile v)) x2 (by rw [hlen]; omega) Vacant]
      rw [List.reverse_reverse]

theorem foldl_rev_mirror (f g : Row → Nat → Row) (n : Nat)
    (hfg : ∀ r : Row, ∀ x, x < n → r.length = n → f r x = (g r.reverse (n - 1 - x)).reverse)
    (hg : ∀ (r : Row) x, (g r x).length = r.length) :
    ∀ (xs : List Nat) (r : Row), r.length = n → (∀ x ∈ xs, x < n) →
      xs.foldl f r = ((xs.map (fun x => n - 1 - x)).foldl g r.reverse).reverse := by
  intro xs
  induction xs with
  | nil =>
    intro r hr _
    simp [List.reverse_reverse]
  | cons x xs ih =>
    intro r hr hb
    rw [List.foldl_cons, List.map_cons, List.foldl_cons]
    have hx : x < n := hb x (List.mem_cons_self x xs)
    rw [hfg r x hx hr]
    have hr' : ((g r.reverse (n - 1 - x)).reverse).length = n := by
      rw [List.length_reverse, hg, List.length_reverse, hr]
    rw [ih _ hr' (fun y hy => hb y (List.mem_cons_of_mem x hy)), List.reverse_reverse]

theorem rev_range_map (n : Nat) :
    (List.range n).reverse.map (fun x => n - 1 - x) = List.range n := by
  apply List.ext_getElem
  · simp
  · intro i h1 h2
    simp only [List.getElem_map, List.getElem_reverse, List.getElem_range,
      List.length_reverse, List.length_range] at h1 h2 ⊢
    omega

theorem rightMergePass_rev (r : Row) :
    rightMergePass r = (leftMergePass r.reverse).reverse := by
  rw [rightMergePass]
  rw [foldl_rev_mirror rightMergeAt leftMergeAt r.length
    (fun s x hx hs => by rw [← hs] at hx ⊢; exact rightMergeAt_rev s x hx)
    leftMergeAt_length _ r rfl
    (fun x hx => by
      rw [List.mem_reverse, List.mem_range] at hx
      exact hx)]
  rw [rev_range_map, leftMergePass, List.length_reverse]

theorem rightCompactPass_rev (r : Row) :
    rightCompactPass r = (upCompactPass r.reverse).reverse := by
  rw [rightCompactPass]
  have hup : ∀ (s : Row) x, (upCompactAt s x).length = s.length := by
    intro s x
    rw [upCompactAt_eq_left]
    exact leftCompactAt_length s x
  rw [foldl_rev_mirror rightCompactAt upCompactAt r.length
    (fun s x hx hs => by rw [← hs] at hx ⊢; exact rightCompactAt_rev s x hx)
    hup _ r rfl
    (fun x hx => by
      rw [List.mem_reverse, List.mem_range] at hx
      exact hx)]
  rw [rev_range_map, upCompactPass, List.length_reverse]

theorem upMergePass_eq_left : upMergePass = leftMergePass := by
  funext c
  rw [upMergePass, leftMergePass, upMergeAt_eq_left]

theorem upCompactPass_eq_left : upCompactPass = leftCompactPass := by
  funext c
  rw [upCompactPass, leftCompactPass, upCompactAt_eq_left]

theorem rightLine_rev (r : Row) :
    rightLine r = (leftLine r.reverse).reverse := by
  rw [rightLine, rightCompactPass_rev, rightMergePass_rev, List.reverse_reverse,
    upCompactPass_eq_left]
  rfl

theorem row4_ex (r : Row) (h : r.length = 4) : ∃ a b c d, r = [a, b, c, d] := by
  rcases r with _ | ⟨a, r⟩
  · simp at h
  rcases r with _ | ⟨b, r⟩
  · simp at h
  rcases r with _ | ⟨c, r⟩
  · simp at h
  rcases r with _ | ⟨d, r⟩
  · simp at h
  rcases r with _ | ⟨e, r⟩
  · exact ⟨a, b, c, d, rfl⟩
  · simp at h

theorem firstTileAux_some (r : List BoardSpace) :
    ∀ i j v, firstTileAux r i = some (j, v) →
      ∃ pre post, r = pre ++ Tile v :: post ∧ i + pre.length = j ∧
        ∀ c ∈ pre, c = Vacant := by
  induction r with
  | nil => intro i j v h; cases h
  | cons a r ih =>
    intro i j v h
    cases a with
    | Tile w =>
      rw [firstTileAux] at h
      cases h
      exact ⟨[], r, rfl, by simp, by simp⟩
    | Vacant =>
      rw [firstTileAux] at h
      obtain ⟨pre, post, hr, hj, hvac⟩ := ih (i + 1) j v h
      refine ⟨Vacant :: pre, post, by simp [hr], by simp; omega, ?_⟩
      intro c hc
      rcases List.mem_cons.mp hc with h1 | h2
      · exact h1
      · exact hvac c h2

theorem firstTileAux_none (r : List BoardSpace) :
    ∀ i, firstTileAux r i = none → ∀ c ∈ r, c = Vacant := by
  induction r with
  | nil => intro i _ c hc; cases hc
  | cons a r ih =>
    intro i h c hc
    cases a with
    | Tile w => cases h
    | Vacant =>
      rw [firstTileAux] at h
      rcases List.mem_cons.mp hc with h1 | h2
      · exact h1
      · exact ih (i + 1) h c h2

theorem firstTileFrom_zero_some (r : Row) (j v : Nat)
    (h : firstTileFrom r 0 = some (j, v)) :
    ∃ pre post, r = pre ++ Tile v :: post ∧ pre.length = j ∧
      ∀ c ∈ pre, c = Vacant := by
  obtain ⟨pre, post, hr, hj, hvac⟩ := firstTileAux_some r 0 j v h
  exact ⟨pre, post, hr, by omega, hvac⟩

theorem firstTileFrom_zero_none (r : Row) (h : firstTileFrom r 0 = none) :
    ∀ c ∈ r, c = Vacant :=
  firstTileAux_none r 0 h

theorem set_append_length (pre post : Row) (a b : BoardSpace) :
    (pre ++ a :: post).set pre.length b = pre ++ b :: post := by
  induction pre with
  | nil => rfl
  | cons p pre ih => simp [List.set_cons_succ, ih]

theorem filter_isTile_vacants (pre : Row) (h : ∀ c ∈ pre, c = Vacant) :
    pre.filter isTile = [] := by
  induction pre with
  | nil => rfl
  | cons a pre ih =>
    have ha : a = Vacant := h a (List.mem_cons_self a pre)
    rw [ha]
    simp only [List.filter_cons]
    rw [show isTile Vacant = false from rfl]
    simp only [Bool.false_eq_true, if_false]
    exact ih fun c hc => h c (List.mem_cons_of_mem a hc)

theorem isTile_vacant : isTile Vacant = false := rfl

theorem isTile_tile (n : Nat) : isTile (Tile n) = true := rfl

theorem compactSpec_canonical : ∀ r : Row,
    compactSpec r = r.filter isTile ++
      List.replicate (r.countP fun c => !isTile c) Vacant := by
  have key : ∀ n (r : Row), r.length ≤ n →
      compactSpec r = r.filter isTile ++
        List.replicate (r.countP fun c => !isTile c) Vacant := by
    intro n
    induction n with
    | zero =>
      intro r h
      rw [List.length_eq_zero.mp (Nat.le_zero.mp h)]
      simp [compactSpec]
    | succ n ih =>
      intro r h
      cases r with
      | nil => simp [compactSpec]
      | cons A rest =>
        simp only [List.length_cons, Nat.succ_le_succ_iff] at h
        cases A with
        | Tile v =>
          rw [compactSpec, ih rest h]
          simp [List.filter_cons, List.countP_cons, isTile]
        | Vacant =>
          rw [compactSpec]
          cases hf : firstTileFrom rest 0 with
          | none =>
            have hvac := firstTileFrom_zero_none rest hf
            rw [ih rest h]
            rw [filter_isTile_vacants rest hvac]
            simp only [List.filter_cons, List.countP_cons]
            rw [show isTile Vacant = false from rfl]
            simp [filter_isTile_vacants rest hvac, List.replicate_succ]
          | some p =>
            obtain ⟨i, v⟩ := p
            obtain ⟨pre, post, hr, hi, hvac⟩ := firstTileFrom_zero_some rest i v hf
            subst hr
            subst hi
            show Tile v :: compactSpec ((pre ++ Tile v :: post).set pre.length Vacant) = _
            rw [set_append_length]
            rw [ih (pre ++ Vacant :: post)
              (by simp only [List.length_append, List.length_cons] at h ⊢; omega)]
            simp [List.filter_append, List.filter_cons, List.countP_append,
              List.countP_cons, isTile_vacant, isTile_tile,
              filter_isTile_vacants pre hvac]
            omega
  exact fun r => key r.length r le_rfl

theorem sumTilesL_append (a b : Row) :
    sumTilesL (a ++ b) = sumTilesL a + sumTilesL b := by
  simp [sumTilesL]

theorem tileCountL_append (a b : Row) :
    tileCountL (a ++ b) = tileCountL a + tileCountL b := by
  simp [tileCountL, List.countP_append]

theorem cellVal_vacant : cellVal Vacant = 0 := rfl

theorem cellVal_tile (n : Nat) : cellVal (Tile n) = n := rfl

theorem sumTilesL_cons (a : BoardSpace) (r : Row) :
    sumTilesL (a :: r) = cellVal a + sumTilesL r := by
  simp [sumTilesL]

theorem tileCountL_cons (a : BoardSpace) (r : Row) :
    tileCountL (a :: r) = tileCountL r + (if isTile a then 1 else 0) := by
  simp [tileCountL, List.countP_cons]

theorem mergeScanSpec_sum : ∀ r : Row, sumTilesL (mergeScanSpec r) = sumTilesL r := by
  have key : ∀ n (r : Row), r.length ≤ n →
      sumTilesL (mergeScanSpec r) = sumTilesL r := by
    intro n
    induction n with
    | zero =>
      intro r h
      rw [List.length_eq_zero.mp (Nat.le_zero.mp h)]
      simp [mergeScanSpec]
    | succ n ih =>
      intro r h
      cases r with
      | nil => simp [mergeScanSpec]
      | cons A rest =>
        simp only [List.length_cons, Nat.succ_le_succ_iff] at h
        cases A with
        | Vacant =>
          rw [mergeScanSpec, sumTilesL_cons, sumTilesL_cons, ih rest h]
        | Tile t =>
          rw [mergeScanSpec]
          cases hf : firstTileFrom rest 0 with
          | none => rw [sumTilesL_cons, sumTilesL_cons, ih rest h]
          | some p =>
            obtain ⟨i, t2⟩ := p
            obtain ⟨pre, post, hr, hi, hvac⟩ :=
              firstTileFrom_zero_some rest i t2 hf
            by_cases ht : t2 = t
            · simp only [if_pos ht]
              subst hr
              subst hi
              rw [set_append_length]
              have hlen : (pre ++ Vacant :: post).length ≤ n := by
                simp only [List.length_append, List.length_cons] at h ⊢
                omega
              rw [sumTilesL_cons, ih _ hlen, sumTilesL_cons, sumTilesL_append,
                sumTilesL_append, sumTilesL_cons, sumTilesL_cons, cellVal_vacant,
                cellVal_tile, cellVal_tile, cellVal_tile]
              subst ht
              omega
            · simp only [if_neg ht]
              rw [sumTilesL_cons, sumTilesL_cons, ih rest h]
  exact fun r => key r.length r le_rfl

theorem mergeScanSpec_count_le : ∀ r : Row,
    tileCountL (mergeScanSpec r) ≤ tileCountL r := by
  have key : ∀ n (r : Row), r.length ≤ n →
      tileCountL (mergeScanSpec r) ≤ tileCountL r := by
    intro n
    induction n with
    | zero =>
      intro r h
      rw [List.length_eq_zero.mp (Nat.le_zero.mp h)]
      simp [mergeScanSpec]
    | succ n ih =>
      intro r h
      cases r with
      | nil => simp [mergeScanSpec]
      | cons A rest =>
        simp only [List.length_cons, Nat.succ_le_succ_iff] at h
        cases A with
        | Vacant =>
          rw [mergeScanSpec, tileCountL_cons, tileCountL_cons]
          have := ih rest h
          omega
        | Tile t =>
          rw [mergeScanSpec]
          cases hf : firstTileFrom rest 0 with
          | none =>
            rw [tileCountL_cons, tileCountL_cons]
            have := ih rest h
            omega
          | some p =>
            obtain ⟨i, t2⟩ := p
            obtain ⟨pre, post, hr, hi, hvac⟩ :=
              firstTileFrom_zero_some rest i t2 hf
            by_cases ht : t2 = t
            · simp only [if_pos ht]
              subst hr
              subst hi
              rw [set_append_length]
              have hlen : (pre ++ Vacant :: post).length ≤ n := by
                simp only [List.length_append, List.length_cons] at h ⊢
                omega
              have hih := ih _ hlen
              rw [tileCountL_cons, tileCountL_cons, tileCountL_append, tileCountL_cons]
              rw [tileCountL_append, tileCountL_cons] at hih
              simp [isTile_tile, isTile_vacant] at hih ⊢
              omega
            · simp only [if_neg ht]
              rw [tileCountL_cons, tileCountL_cons]
              have := ih rest h
              omega
  exact fun r => key r.length r le_rfl

theorem sumTilesL_filter (r : Row) :
    sumTilesL (r.filter isTile) = sumTilesL r := by
  induction r with
  | nil => rfl
  | cons a r ih =>
    cases a with
    | Vacant => simpa [sumTilesL, List.filter_cons, isTile_vacant, cellVal] using ih
    | Tile v => simp [sumTilesL, List.filter_cons, isTile_tile, cellVal] at ih ⊢; omega

theorem sumTilesL_replicate_vacant (k : Nat) :
    sumTilesL (List.replicate k Vacant) = 0 := by
  induction k with
  | zero => rfl
  | succ k ih => simpa [List.replicate_succ, sumTilesL, cellVal] using ih

theorem tileCountL_replicate_vacant (k : Nat) :
    tileCountL (List.replicate k Vacant) = 0 := by
  induction k with
  | zero => rfl
  | succ k ih =>
    simpa [List.replicate_succ, tileCountL, List.countP_cons, isTile_vacant] using ih

theorem tileCountL_filter (r : Row) :
    tileCountL (r.filter isTile) = tileCountL r := by
  induction r with
  | nil => rfl
  | cons a r ih =>
    cases a with
    | Vacant =>
      simpa [tileCountL, List.filter_cons, isTile_vacant, List.countP_cons] using ih
    | Tile v =>
      simp [tileCountL, List.filter_cons, isTile_tile, List.countP_cons] at ih ⊢
      omega

theorem compactSpec_sum (r : Row) : sumTilesL (compactSpec r) = sumTilesL r := by
  rw [compactSpec_canonical, sumTilesL_append, sumTilesL_filter,
    sumTilesL_replicate_vacant]
  omega

theorem compactSpec_count (r : Row) : tileCountL (compactSpec r) = tileCountL r := by
  rw [compactSpec_canonical, tileCountL_append, tileCountL_filter,
    tileCountL_replicate_vacant]
  omega

theorem leftLine_sum (r : Row) : sumTilesL (leftLine r) = sumTilesL r := by
  rw [leftLine_eq_slideSpec, slideSpec, compactSpec_sum, mergeScanSpec_sum]

theorem leftLine_count_le (r : Row) : tileCountL (leftLine r) ≤ tileCountL r := by
  rw [leftLine_eq_slideSpec, slideSpec, compactSpec_count]
  exact mergeScanSpec_count_le r

theorem sumTilesL_reverse (r : Row) : sumTilesL r.reverse = sumTilesL r := by
  simp [sumTilesL, List.map_reverse, List.sum_reverse]

theorem tileCountL_reverse (r : Row) : tileCountL r.reverse = tileCountL r := by
  simp [tileCountL, List.countP_eq_length_filter, List.filter_reverse]

theorem rightLine_sum (r : Row) : sumTilesL (rightLine r) = sumTilesL r := by
  rw [rightLine_rev, sumTilesL_reverse, leftLine_sum, sumTilesL_reverse]

theorem rightLine_count_le (r : Row) : tileCountL (rightLine r) ≤ tileCountL r := by
  rw [rightLine_rev, tileCountL_reverse, ← tileCountL_reverse r]
  exact leftLine_count_le r.reverse

theorem upLine_sum (c : Row) : sumTilesL (upLine c) = sumTilesL c := by
  rw [upLine_eq_leftLine]; exact leftLine_sum c

theorem upLine_count_le (c : Row) : tileCountL (upLine c) ≤ tileCountL c := by
  rw [upLine_eq_leftLine]; exact leftLine_count_le c

theorem downLine_sum (c : Row) : sumTilesL (downLine c) = sumTilesL c := by
  rw [downLine_eq_rightLine]; exact rightLine_sum c

theorem downLine_count_le (c : Row) : tileCountL (downLine c) ≤ tileCountL c := by
  rw [downLine_eq_rightLine]; exact rightLine_count_le c

theorem list4_ex {α : Type} (l : List α) (h : l.length = 4) :
    ∃ a b c d, l = [a, b, c, d] := by
  rcases l with _ | ⟨a, l⟩
  · simp at h
  rcases l with _ | ⟨b, l⟩
  · simp at h
  rcases l with _ | ⟨c, l⟩
  · simp at h
  rcases l with _ | ⟨d, l⟩
  · simp at h
  rcases l with _ | ⟨e, l⟩
  · exact ⟨a, b, c, d, rfl⟩
  · simp at h

theorem grid4_ex (g : Grid) (h : WF g) :
    ∃ r0 r1 r2 r3, g = [r0, r1, r2, r3] ∧ r0.length = 4 ∧ r1.length = 4 ∧
      r2.length = 4 ∧ r3.length = 4 := by
  obtain ⟨hlen, hrows⟩ := h
  obtain ⟨r0, r1, r2, r3, rfl⟩ := list4_ex g hlen
  exact ⟨r0, r1, r2, r3, rfl,
    hrows r0 (by simp), hrows r1 (by simp), hrows r2 (by simp), hrows r3 (by simp)⟩

theorem sumTilesG_map (f : Row → Row) (hf : ∀ r, sumTilesL (f r) = sumTilesL r)
    (g : Grid) : sumTilesG (g.map f) = sumTilesG g := by
  rw [sumTilesG, sumTilesG, List.map_map]
  have : sumTilesL ∘ f = sumTilesL := funext hf
  rw [this]

theorem tileCountG_map_le (f : Row → Row)
    (hf : ∀ r, tileCountL (f r) ≤ tileCountL r) (g : Grid) :
    tileCountG (g.map f) ≤ tileCountG g := by
  rw [tileCountG, tileCountG, List.map_map]
  apply List.sum_le_sum
  intro r _
  exact hf r

theorem sumTilesG_cols (g : Grid) (h : WF g) :
    sumTilesG g = sumTilesL (col g 0) + sumTilesL (col g 1) +
      sumTilesL (col g 2) + sumTilesL (col g 3) := by
  obtain ⟨r0, r1, r2, r3, rfl, h0, h1, h2, h3⟩ := grid4_ex g h
  obtain ⟨a0, a1, a2, a3, rfl⟩ := list4_ex r0 h0
  obtain ⟨b0, b1, b2, b3, rfl⟩ := list4_ex r1 h1
  obtain ⟨c0, c1, c2, c3, rfl⟩ := list4_ex r2 h2
  obtain ⟨d0, d1, d2, d3, rfl⟩ := list4_ex r3 h3
  simp [sumTilesG, sumTilesL, col, getCell]
  omega

theorem tileCountG_cols (g : Grid) (h : WF g) :
    tileCountG g = tileCountL (col g 0) + tileCountL (col g 1) +
      tileCountL (col g 2) + tileCountL (col g 3) := by
  obtain ⟨r0, r1, r2, r3, rfl, h0, h1, h2, h3⟩ := grid4_ex g h
  obtain ⟨a0, a1, a2, a3, rfl⟩ := list4_ex r0 h0
  obtain ⟨b0, b1, b2, b3, rfl⟩ := list4_ex r1 h1
  obtain ⟨c0, c1, c2, c3, rfl⟩ := list4_ex r2 h2
  obtain ⟨d0, d1, d2, d3, rfl⟩ := list4_ex r3 h3
  simp [tileCountG, tileCountL, col, getCell, List.countP_cons]
  omega

theorem sumTilesG_fromCols (c0 c1 c2 c3 : Row) (h0 : c0.length = 4)
    (h1 : c1.length = 4) (h2 : c2.length = 4) (h3 : c3.length = 4) :
    sumTilesG (fromCols c0 c1 c2 c3) =
      sumTilesL c0 + sumTilesL c1 + sumTilesL c2 + sumTilesL c3 := by
  obtain ⟨a0, a1, a2, a3, rfl⟩ := list4_ex c0 h0
  obtain ⟨b0, b1, b2, b3, rfl⟩ := list4_ex c1 h1
  obtain ⟨e0, e1, e2, e3, rfl⟩ := list4_ex c2 h2
  obtain ⟨d0, d1, d2, d3, rfl⟩ := list4_ex c3 h3
  simp [fromCols, sumTilesG, sumTilesL]
  omega

theorem tileCountG_fromCols (c0 c1 c2 c3 : Row) (h0 : c0.length = 4)
    (h1 : c1.length = 4) (h2 : c2.length = 4) (h3 : c3.length = 4) :
    tileCountG (fromCols c0 c1 c2 c3) =
      tileCountL c0 + tileCountL c1 + tileCountL c2 + tileCountL c3 := by
  obtain ⟨a0, a1, a2, a3, rfl⟩ := list4_ex c0 h0
  obtain ⟨b0, b1, b2, b3, rfl⟩ := list4_ex c1 h1
  obtain ⟨e0, e1, e2, e3, rfl⟩ := list4_ex c2 h2
  obtain ⟨d0, d1, d2, d3, rfl⟩ := list4_ex c3 h3
  simp [fromCols, tileCountG, tileCountL, List.countP_cons]
  omega

theorem col_length (g : Grid) (x : Nat) : (col g x).length = 4 := rfl

theorem upLine_length (c : Row) : (upLine c).length = c.length := by
  rw [upLine_eq_leftLine]
  exact leftLine_length c

theorem upLine_col_length (g : Grid) (x : Nat) :
    (upLine (col g x)).length = 4 := by
  rw [upLine_length]
  rfl

theorem downLine_length (c : Row) : (downLine c).length = c.length := by
  rw [downLine_eq_rightLine]
  exact rightLine_length c

theorem downLine_col_length (g : Grid) (x : Nat) :
    (downLine (col g x)).length = 4 := by
  rw [downLine_length]
  rfl

/-- C10: for every board and direction, `move` preserves the sum of all
tile values on the grid (each merge replaces two tiles of value t with one
tile of value 2t) and never increases the number of occupied cells; in
particular `move` by itself never places a new tile. -/
theorem C10_move_conservation (g : Grid) (d : MoveDirection) (h : WF g) :
    sumTilesG (move d g) = sumTilesG g ∧
      tileCountG (move d g) ≤ tileCountG g := by
  cases d with
  | Left =>
    exact ⟨sumTilesG_map leftLine leftLine_sum g,
      tileCountG_map_le leftLine leftLine_count_le g⟩
  | Right =>
    exact ⟨sumTilesG_map rightLine rightLine_sum g,
      tileCountG_map_le rightLine rightLine_count_le g⟩
  | Up =>
    constructor
    · show sumTilesG (fromCols _ _ _ _) = _
      rw [sumTilesG_fromCols _ _ _ _ (upLine_col_length g 0) (upLine_col_length g 1)
        (upLine_col_length g 2) (upLine_col_length g 3)]
      rw [upLine_sum, upLine_sum, upLine_sum, upLine_sum, ← sumTilesG_cols g h]
    · show tileCountG (fromCols _ _ _ _) ≤ _
      rw [tileCountG_fromCols _ _ _ _ (upLine_col_length g 0) (upLine_col_length g 1)
        (upLine_col_length g 2) (upLine_col_length g 3), tileCountG_cols g h]
      have i0 := upLine_count_le (col g 0)
      have i1 := upLine_count_le (col g 1)
      have i2 := upLine_count_le (col g 2)
      have i3 := upLine_count_le (col g 3)
      omega
  | Down =>
    constructor
    · show sumTilesG (fromCols _ _ _ _) = _
      rw [sumTilesG_fromCols _ _ _ _ (downLine_col_length g 0) (downLine_col_length g 1)
        (downLine_col_length g 2) (downLine_col_length g 3)]
      rw [downLine_sum, downLine_sum, downLine_sum, downLine_sum,
        ← sumTilesG_cols g h]
    · show tileCountG (fromCols _ _ _ _) ≤ _
      rw [tileCountG_fromCols _ _ _ _ (downLine_col_length g 0) (downLine_col_length g 1)
        (downLine_col_length g 2) (downLine_col_length g 3), tileCountG_cols g h]
      have i0 := downLine_count_le (col g 0)
      have i1 := downLine_count_le (col g 1)
      have i2 := downLine_count_le (col g 2)
      have i3 := downLine_count_le (col g 3)
      omega

/-- Witness for C10 at the sample board of the test module, direction Up. -/
theorem C10_move_conservation_witness :
    WF sampleBoard ∧
      (sumTilesG (move MoveDirection.Up sampleBoard) = sumTilesG sampleBoard ∧
        tileCountG (move MoveDirection.Up sampleBoard) ≤ tileCountG sampleBoard) :=
  ⟨⟨rfl, by decide⟩,
    C10_move_conservation sampleBoard MoveDirection.Up ⟨rfl, by decide⟩⟩

theorem downMergePass_eq_right : downMergePass = rightMergePass := rfl

theorem rightMergePass_spec (r : Row) :
    rightMergePass r = (mergeScanSpec r.reverse).reverse := by
  rw [rightMergePass_rev, leftMergePass_eq_spec]

/-- C1: in every direction, the merge scan of `move` processes each line in
the direction of the move exactly as the specification describes: for each
occupied cell, the nearest non-Vacant cell beyond it (in move direction) is
examined; an equal tile merges (doubling in place, vacating the match) and a
different value blocks the merge; the recursive form `mergeScanSpec` emits
each processed cell exactly once, so every tile participates in at most one
merge per move.  For Right and Down the scan direction is the mirror image,
stated via list reversal. -/
theorem C1_merge_scan_refinement (r : Row) :
    leftMergePass r = mergeScanSpec r ∧
    upMergePass r = mergeScanSpec r ∧
    rightMergePass r = (mergeScanSpec r.reverse).reverse ∧
    downMergePass r = (mergeScanSpec r.reverse).reverse := by
  refine ⟨leftMergePass_eq_spec r, ?_, rightMergePass_spec r, ?_⟩
  · rw [upMergePass_eq_left]
    exact leftMergePass_eq_spec r
  · rw [downMergePass_eq_right]
    exact rightMergePass_spec r

/-- C8: the sample scenario of the lib.rs test module: moving the sample
board Up produces exactly the expected grid (the code has no post-move
random spawn). -/
theorem C8_sample_move_up :
    move MoveDirection.Up sampleBoard = moveUpExpected := by decide

theorem sample_move_down :
    move MoveDirection.Down sampleBoard = moveDownExpected := by decide

theorem sample_move_left :
    move MoveDirection.Left sampleBoard = moveLeftExpected := by decide

theorem sample_move_right :
    move MoveDirection.Right sampleBoard = moveRightExpected := by decide

/-- C5: `move` is behaviourally equivalent to rotating by the fixed
quarter-turn count {Left:0, Up:1, Right:2, Down:3}, sliding every row left,
and rotating back by the complementary amount; and rotating by k then by
(4-k) mod 4 quarter-turns is the identity, for k < 4. -/
theorem C5_rotation_refinement (g : Grid) (h : WF g) :
    (∀ d, move d g = moveViaRotation d g) ∧
    (∀ k, k < 4 → rotN ((4 - k) % 4) (rotN k g) = g) := by
  obtain ⟨r0, r1, r2, r3, rfl, h0, h1, h2, h3⟩ := grid4_ex g h
  obtain ⟨a0, a1, a2, a3, rfl⟩ := list4_ex r0 h0
  obtain ⟨b0, b1, b2, b3, rfl⟩ := list4_ex r1 h1
  obtain ⟨c0, c1, c2, c3, rfl⟩ := list4_ex r2 h2
  obtain ⟨d0, d1, d2, d3, rfl⟩ := list4_ex r3 h3
  constructor
  · intro d
    cases d with
    | Left => rfl
    | Up =>
      show fromCols (upLine [a0, b0, c0, d0]) (upLine [a1, b1, c1, d1])
          (upLine [a2, b2, c2, d2]) (upLine [a3, b3, c3, d3]) =
        rotN 3 [leftLine [a3, b3, c3, d3], leftLine [a2, b2, c2, d2],
          leftLine [a1, b1, c1, d1], leftLine [a0, b0, c0, d0]]
      rw [upLine_eq_leftLine]
      obtain ⟨p0, p1, p2, p3, hp⟩ :=
        list4_ex (leftLine [a0, b0, c0, d0]) (by rw [leftLine_length]; rfl)
      obtain ⟨q0, q1, q2, q3, hq⟩ :=
        list4_ex (leftLine [a1, b1, c1, d1]) (by rw [leftLine_length]; rfl)
      obtain ⟨s0, s1, s2, s3, hs⟩ :=
        list4_ex (leftLine [a2, b2, c2, d2]) (by rw [leftLine_length]; rfl)
      obtain ⟨u0, u1, u2, u3, hu⟩ :=
        list4_ex (leftLine [a3, b3, c3, d3]) (by rw [leftLine_length]; rfl)
      rw [hp, hq, hs, hu]
      rfl
    | Right =>
      show [rightLine [a0, a1, a2, a3], rightLine [b0, b1, b2, b3],
          rightLine [c0, c1, c2, c3], rightLine [d0, d1, d2, d3]] =
        rotN 2 [leftLine [d3, d2, d1, d0], leftLine [c3, c2, c1, c0],
          leftLine [b3, b2, b1, b0], leftLine [a3, a2, a1, a0]]
      rw [rightLine_rev, rightLine_rev, rightLine_rev, rightLine_rev]
      show [(leftLine [a3, a2, a1, a0]).reverse, (leftLine [b3, b2, b1, b0]).reverse,
          (leftLine [c3, c2, c1, c0]).reverse, (leftLine [d3, d2, d1, d0]).reverse] = _
      obtain ⟨p0, p1, p2, p3, hp⟩ :=
        list4_ex (leftLine [a3, a2, a1, a0]) (by rw [leftLine_length]; rfl)
      obtain ⟨q0, q1, q2, q3, hq⟩ :=
        list4_ex (leftLine [b3, b2, b1, b0]) (by rw [leftLine_length]; rfl)
      obtain ⟨s0, s1, s2, s3, hs⟩ :=
        list4_ex (leftLine [c3, c2, c1, c0]) (by rw [leftLine_length]; rfl)
      obtain ⟨u0, u1, u2, u3, hu⟩ :=
        list4_ex (leftLine [d3, d2, d1, d0]) (by rw [leftLine_length]; rfl)
      rw [hp, hq, hs, hu]
      rfl
    | Down =>
      show fromCols (rightLine [a0, b0, c0, d0]) (rightLine [a1, b1, c1, d1])
          (rightLine [a2, b2, c2, d2]) (rightLine [a3, b3, c3, d3]) =
        rotN 1 [leftLine [d0, c0, b0, a0], leftLine [d1, c1, b1, a1],
          leftLine [d2, c2, b2, a2], leftLine [d3, c3, b3, a3]]
      rw [rightLine_rev, rightLine_rev, rightLine_rev, rightLine_rev]
      show fromCols (leftLine [d0, c0, b0, a0]).reverse
          (leftLine [d1, c1, b1, a1]).reverse (leftLine [d2, c2, b2, a2]).reverse
          (leftLine [d3, c3, b3, a3]).reverse = _
      obtain ⟨p0, p1, p2, p3, hp⟩ :=
        list4_ex (leftLine [d0, c0, b0, a0]) (by rw [leftLine_length]; rfl)
      obtain ⟨q0, q1, q2, q3, hq⟩ :=
        list4_ex (leftLine [d1, c1, b1, a1]) (by rw [leftLine_length]; rfl)
      obtain ⟨s0, s1, s2, s3, hs⟩ :=
        list4_ex (leftLine [d2, c2, b2, a2]) (by rw [leftLine_length]; rfl)
      obtain ⟨u0, u1, u2, u3, hu⟩ :=
        list4_ex (leftLine [d3, c3, b3, a3]) (by rw [leftLine_length]; rfl)
      rw [hp, hq, hs, hu]
      rfl
  · intro k hk
    interval_cases k
    · rfl
    · rfl
    · rfl
    · rfl

/-- Witness for C5 at the sample board, direction Up. -/
theorem C5_rotation_refinement_witness :
    WF sampleBoard ∧
      move MoveDirection.Up sampleBoard =
        moveViaRotation MoveDirection.Up sampleBoard :=
  ⟨⟨rfl, by decide⟩,
    (C5_rotation_refinement sampleBoard ⟨rfl, by decide⟩).1 MoveDirection.Up⟩

/-- C7 (code bug): `GameBoard::new()` is documented as "prefilled with two
tiles" and the spec says `empty()` followed by `STARTING_TILES` (2) spawns,
but the body carries a TODO and returns the all-Vacant grid: `new()` equals
`empty()` and contains zero tiles, not two. -/
theorem C7_new_returns_empty :
    newGrid = emptyGrid ∧ tileCountG newGrid = 0 ∧ tileCountG newGrid ≠ 2 := by
  refine ⟨rfl, by decide, by decide⟩

theorem pairMovable_comm (a b : BoardSpace) :
    pairMovable a b ↔ pairMovable b a := by
  unfold pairMovable
  constructor <;> rintro (h | h | h) <;> simp [h]

theorem notPairMovable_iff (a b : BoardSpace) :
    ¬ pairMovable a b ↔ (a ≠ Vacant ∧ b ≠ Vacant ∧ ¬ adjEqP a b) := by
  unfold pairMovable adjEqP
  cases a <;> cases b <;> simp [isTile]

theorem rowStuck_rev4 (a b c d : BoardSpace) :
    rowStuck [d, c, b, a] ↔ rowStuck [a, b, c, d] := by
  unfold rowStuck
  simp only [List.chain'_cons, List.chain'_singleton, and_true]
  constructor
  · rintro ⟨h1, h2, h3⟩
    exact ⟨fun hp => h3 ((pairMovable_comm a b).mp hp),
      fun hp => h2 ((pairMovable_comm b c).mp hp),
      fun hp => h1 ((pairMovable_comm c d).mp hp)⟩
  · rintro ⟨h1, h2, h3⟩
    exact ⟨fun hp => h3 ((pairMovable_comm d c).mp hp),
      fun hp => h2 ((pairMovable_comm c b).mp hp),
      fun hp => h1 ((pairMovable_comm b a).mp hp)⟩

theorem rowStuck_iff4 (a b c d : BoardSpace) :
    rowStuck [a, b, c, d] ↔
      ((a ≠ Vacant ∧ b ≠ Vacant ∧ c ≠ Vacant ∧ d ≠ Vacant) ∧
        noAdjRow [a, b, c, d]) := by
  unfold rowStuck noAdjRow
  simp only [List.chain'_cons, List.chain'_singleton, and_true,
    notPairMovable_iff]
  tauto

theorem adjEqP_comm (a b : BoardSpace) : adjEqP a b ↔ adjEqP b a :=
  ⟨fun h => ⟨h.2 ▸ h.1, h.2.symm⟩, fun h => ⟨h.2 ▸ h.1, h.2.symm⟩⟩

theorem noAdjRow_rev4 (a b c d : BoardSpace) :
    noAdjRow [d, c, b, a] ↔ noAdjRow [a, b, c, d] := by
  unfold noAdjRow
  simp only [List.chain'_cons, List.chain'_singleton, and_true]
  constructor
  · rintro ⟨h1, h2, h3⟩
    exact ⟨fun hp => h3 ((adjEqP_comm a b).mp hp),
      fun hp => h2 ((adjEqP_comm b c).mp hp),
      fun hp => h1 ((adjEqP_comm c d).mp hp)⟩
  · rintro ⟨h1, h2, h3⟩
    exact ⟨fun hp => h3 ((adjEqP_comm d c).mp hp),
      fun hp => h2 ((adjEqP_comm c b).mp hp),
      fun hp => h1 ((adjEqP_comm b a).mp hp)⟩

set_option maxHeartbeats 1000000 in
theorem hasLost_iff_struct (g : Grid) (h : WF g) :
    hasLost g ↔ fullGrid g ∧ noAdjEq g := by
  obtain ⟨r0, r1, r2, r3, rfl, h0, h1, h2, h3⟩ := grid4_ex g h
  obtain ⟨a0, a1, a2, a3, rfl⟩ := list4_ex r0 h0
  obtain ⟨b0, b1, b2, b3, rfl⟩ := list4_ex r1 h1
  obtain ⟨c0, c1, c2, c3, rfl⟩ := list4_ex r2 h2
  obtain ⟨d0, d1, d2, d3, rfl⟩ := list4_ex r3 h3
  have e1 := noAdjRow_rev4 a0 a1 a2 a3
  have e2 := noAdjRow_rev4 b0 b1 b2 b3
  have e3 := noAdjRow_rev4 c0 c1 c2 c3
  have e4 := noAdjRow_rev4 d0 d1 d2 d3
  have f1 := noAdjRow_rev4 a0 b0 c0 d0
  have f2 := noAdjRow_rev4 a1 b1 c1 d1
  have f3 := noAdjRow_rev4 a2 b2 c2 d2
  have f4 := noAdjRow_rev4 a3 b3 c3 d3
  simp [hasLost, rowsStuck, fullGrid, noAdjEq, rotCCW, col, getCell]
  simp only [rowStuck_iff4]
  rw [e1, e2, e3, e4, f1, f2, f3, f4]
  constructor <;> intro hh <;> simp_all [ne_eq]

theorem mergeScanSpec_eq_self_of_count : ∀ r : Row,
    tileCountL (mergeScanSpec r) = tileCountL r → mergeScanSpec r = r := by
  have key : ∀ n (r : Row), r.length ≤ n →
      tileCountL (mergeScanSpec r) = tileCountL r → mergeScanSpec r = r := by
    intro n
    induction n with
    | zero =>
      intro r h _
      rw [List.length_eq_zero.mp (Nat.le_zero.mp h)]
      simp [mergeScanSpec]
    | succ n ih =>
      intro r h hc
      cases r with
      | nil => simp [mergeScanSpec]
      | cons A rest =>
        simp only [List.length_cons, Nat.succ_le_succ_iff] at h
        cases A with
        | Vacant =>
          rw [mergeScanSpec] at hc ⊢
          rw [tileCountL_cons, tileCountL_cons] at hc
          simp only [isTile_vacant] at hc
          rw [ih rest h (by omega)]
        | Tile t =>
          rw [mergeScanSpec] at hc ⊢
          cases hf : firstTileFrom rest 0 with
          | none =>
            rw [hf] at hc
            simp only at hc
            rw [tileCountL_cons, tileCountL_cons] at hc
            rw [ih rest h (by omega)]
          | some p =>
            obtain ⟨i, t2⟩ := p
            rw [hf] at hc
            simp only at hc
            by_cases ht : t2 = t
            · exfalso
              obtain ⟨pre, post, hr, hi, hvac⟩ :=
                firstTileFrom_zero_some rest i t2 hf
              subst hr
              subst hi
              rw [if_pos ht] at hc
              rw [set_append_length] at hc
              have hle := mergeScanSpec_count_le (pre ++ Vacant :: post)
              rw [tileCountL_cons, tileCountL_cons, tileCountL_append,
                tileCountL_cons] at hc
              rw [tileCountL_append, tileCountL_cons] at hle
              simp [isTile_tile, isTile_vacant] at hc hle
              omega
            · rw [if_neg ht] at hc
              rw [tileCountL_cons, tileCountL_cons] at hc
              show (if t2 = t then Tile (t * 2) :: mergeScanSpec (rest.set i Vacant)
                else Tile t :: mergeScanSpec rest) = Tile t :: rest
              rw [if_neg ht, ih rest h (by omega)]
  exact fun r => key r.length r le_rfl

theorem compactSpec_of_full (r : Row) (hfull : ∀ c ∈ r, c ≠ Vacant) :
    compactSpec r = r := by
  rw [compactSpec_canonical]
  have h1 : r.filter isTile = r := by
    apply List.filter_eq_self.mpr
    intro a ha
    cases hca : a with
    | Vacant => exact absurd hca (hfull a ha)
    | Tile v => rfl
  have h2 : r.countP (fun c => !isTile c) = 0 := by
    apply List.countP_eq_zero.mpr
    intro a ha
    cases hca : a with
    | Vacant => exact absurd hca (hfull a ha)
    | Tile v => simp [isTile]
  rw [h1, h2]
  simp

theorem mergeScanSpec_of_stuck : ∀ r : Row,
    (∀ c ∈ r, c ≠ Vacant) → noAdjRow r → mergeScanSpec r = r := by
  have key : ∀ n (r : Row), r.length ≤ n →
      (∀ c ∈ r, c ≠ Vacant) → noAdjRow r → mergeScanSpec r = r := by
    intro n
    induction n with
    | zero =>
      intro r h _ _
      rw [List.length_eq_zero.mp (Nat.le_zero.mp h)]
      simp [mergeScanSpec]
    | succ n ih =>
      intro r h hfull hnadj
      cases r with
      | nil => simp [mergeScanSpec]
      | cons A rest =>
        simp only [List.length_cons, Nat.succ_le_succ_iff] at h
        cases A with
        | Vacant =>
          exact absurd rfl (hfull Vacant (List.mem_cons_self _ _))
        | Tile t =>
          rw [mergeScanSpec]
          cases rest with
          | nil => simp [mergeScanSpec, firstTileFrom, firstTileAux]
          | cons B rest2 =>
            cases B with
            | Vacant =>
              exact absurd rfl
                (hfull Vacant (List.mem_cons_of_mem _ (List.mem_cons_self _ _)))
            | Tile u =>
              have hfst : firstTileFrom (Tile u :: rest2) 0 = some (0, u) := rfl
              rw [hfst]
              have hut : ¬ u = t := by
                intro he
                have : adjEqP (Tile t) (Tile u) := ⟨rfl, by rw [he]⟩
                exact (List.chain'_cons.mp hnadj).1 this
              show (if u = t then
                  Tile (t * 2) :: mergeScanSpec ((Tile u :: rest2).set 0 Vacant)
                else Tile t :: mergeScanSpec (Tile u :: rest2)) = _
              rw [if_neg hut]
              have htail : mergeScanSpec (Tile u :: rest2) = Tile u :: rest2 := by
                apply ih _ (by simpa using h)
                · intro c hc
                  exact hfull c (List.mem_cons_of_mem _ hc)
                · exact (List.chain'_cons.mp hnadj).2
              rw [htail]
  exact fun r => key r.length r le_rfl

theorem leftLine_of_stuck (r : Row) (hfull : ∀ c ∈ r, c ≠ Vacant)
    (hnadj : noAdjRow r) : leftLine r = r := by
  rw [leftLine_eq_slideSpec, slideSpec, mergeScanSpec_of_stuck r hfull hnadj,
    compactSpec_of_full r hfull]

theorem mergeScanSpec_noadj_of_fix : ∀ r : Row,
    (∀ c ∈ r, c ≠ Vacant) → mergeScanSpec r = r → noAdjRow r := by
  have key : ∀ n (r : Row), r.length ≤ n →
      (∀ c ∈ r, c ≠ Vacant) → mergeScanSpec r = r → noAdjRow r := by
    intro n
    induction n with
    | zero =>
      intro r h _ _
      rw [List.length_eq_zero.mp (Nat.le_zero.mp h)]
      exact List.chain'_nil
    | succ n ih =>
      intro r h hfull hfix
      cases r with
      | nil => exact List.chain'_nil
      | cons A rest =>
        simp only [List.length_cons, Nat.succ_le_succ_iff] at h
        cases A with
        | Vacant =>
          exact absurd rfl (hfull Vacant (List.mem_cons_self _ _))
        | Tile t =>
          cases rest with
          | nil => simp [noAdjRow]
          | cons B rest2 =>
            cases B with
            | Vacant =>
              exact absurd rfl
                (hfull Vacant (List.mem_cons_of_mem _ (List.mem_cons_self _ _)))
            | Tile u =>
              rw [mergeScanSpec] at hfix
              have hfst : firstTileFrom (Tile u :: rest2) 0 = some (0, u) := rfl
              rw [hfst] at hfix
              have hfix2 : (if u = t then
                  Tile (t * 2) :: mergeScanSpec ((Tile u :: rest2).set 0 Vacant)
                else Tile t :: mergeScanSpec (Tile u :: rest2)) =
                  Tile t :: Tile u :: rest2 := hfix
              clear hfix
              by_cases hut : u = t
              · exfalso
                rw [if_pos hut] at hfix2
                have hcnt := congrArg tileCountL hfix2
                have hle := mergeScanSpec_count_le ((Tile u :: rest2).set 0 Vacant)
                rw [show (Tile u :: rest2).set 0 Vacant = Vacant :: rest2 from rfl]
                  at hcnt hle
                rw [tileCountL_cons, tileCountL_cons, tileCountL_cons] at hcnt
                rw [tileCountL_cons] at hle
                simp [isTile_tile, isTile_vacant] at hcnt hle
                omega
              · rw [if_neg hut] at hfix2
                injection hfix2 with hh htail
                apply List.chain'_cons.mpr
                constructor
                · intro hadj
                  have h2 := hadj.2
                  injection h2 with hv
                  exact hut hv.symm
                · apply ih _ (by simpa using h)
                  · intro c hc
                    exact hfull c (List.mem_cons_of_mem _ hc)
                  · exact htail
  exact fun r => key r.length r le_rfl

theorem leftLine_fix_packed (r : Row) (h : leftLine r = r) :
    ∃ ts k, r = ts ++ List.replicate k Vacant ∧ ∀ c ∈ ts, isTile c := by
  refine ⟨(mergeScanSpec r).filter isTile,
    (mergeScanSpec r).countP (fun c => !isTile c), ?_, ?_⟩
  · conv_lhs => rw [← h, leftLine_eq_slideSpec, slideSpec, compactSpec_canonical]
  · intro c hc
    exact (List.mem_filter.mp hc).2

theorem rightLine_fix (r : Row) (h : rightLine r = r) :
    leftLine r.reverse = r.reverse := by
  rw [rightLine_rev] at h
  calc leftLine r.reverse = ((leftLine r.reverse).reverse).reverse := by
        rw [List.reverse_reverse]
    _ = r.reverse := by rw [h]

theorem packed_homog (r : Row)
    (hL : ∃ ts k, r = ts ++ List.replicate k Vacant ∧ ∀ c ∈ ts, isTile c)
    (hR : ∃ ts k, r.reverse = ts ++ List.replicate k Vacant ∧ ∀ c ∈ ts, isTile c) :
    (∀ c ∈ r, isTile c) ∨ (∀ c ∈ r, c = Vacant) := by
  obtain ⟨ts, k, hr, hts⟩ := hL
  obtain ⟨ts2, k2, hr2, hts2⟩ := hR
  cases k with
  | zero =>
    left
    intro c hc
    rw [hr] at hc
    exact hts c (by simpa using hc)
  | succ k =>
    cases ts2 with
    | nil =>
      right
      intro c hc
      have hcr : c ∈ r.reverse := List.mem_reverse.mpr hc
      rw [hr2] at hcr
      simp only [List.nil_append] at hcr
      exact List.eq_of_mem_replicate hcr
    | cons t0 ts2' =>
      exfalso
      have hlast : r.getLast? = some Vacant := by
        rw [hr, List.getLast?_append_of_ne_nil _ (by simp)]
        rw [← List.head?_reverse, List.reverse_replicate, List.replicate_succ]
        rfl
      have hhead : r.getLast? = some t0 := by
        rw [← List.head?_reverse, hr2]
        rfl
      rw [hlast] at hhead
      injection hhead with he
      have hti := hts2 t0 (List.mem_cons_self _ _)
      rw [← he] at hti
      simp [isTile] at hti

theorem noAdjRow_reverse (r : Row) : noAdjRow r.reverse ↔ noAdjRow r := by
  unfold noAdjRow
  rw [List.chain'_reverse]
  constructor
  · intro hc
    exact hc.imp fun {a b} hab hadj => hab ((adjEqP_comm a b).mp hadj)
  · intro hc
    exact hc.imp fun {a b} hab hadj => hab ((adjEqP_comm b a).mp hadj)

theorem map_fix_of_mem {α : Type} (l : List α) (f : α → α) (h : l.map f = l) :
    ∀ x ∈ l, f x = x := by
  intro x hx
  obtain ⟨i, hi, hgx⟩ := List.mem_iff_getElem.mp hx
  have := congrArg (fun t => t.getD i x) h
  simp only [List.getD_eq_getElem?_getD] at this
  rw [List.getElem?_map] at this
  rw [List.getElem?_eq_getElem hi] at this
  simp only [Option.map_some', Option.getD_some] at this
  rw [hgx] at this
  exact this

theorem map_id_of_fix {α : Type} (l : List α) (f : α → α)
    (h : ∀ x ∈ l, f x = x) : l.map f = l := by
  induction l with
  | nil => rfl
  | cons a l ih =>
    rw [List.map_cons, h a (List.mem_cons_self _ _),
      ih fun x hx => h x (List.mem_cons_of_mem a hx)]

theorem fromCols_cols (g : Grid) (h : WF g) :
    fromCols (col g 0) (col g 1) (col g 2) (col g 3) = g := by
  obtain ⟨r0, r1, r2, r3, rfl, h0, h1, h2, h3⟩ := grid4_ex g h
  obtain ⟨a0, a1, a2, a3, rfl⟩ := list4_ex r0 h0
  obtain ⟨b0, b1, b2, b3, rfl⟩ := list4_ex r1 h1
  obtain ⟨c0, c1, c2, c3, rfl⟩ := list4_ex r2 h2
  obtain ⟨d0, d1, d2, d3, rfl⟩ := list4_ex r3 h3
  rfl

theorem col_fromCols (A B C D : Row) (hA : A.length = 4) (hB : B.length = 4)
    (hC : C.length = 4) (hD : D.length = 4) :
    col (fromCols A B C D) 0 = A ∧ col (fromCols A B C D) 1 = B ∧
      col (fromCols A B C D) 2 = C ∧ col (fromCols A B C D) 3 = D := by
  obtain ⟨a0, a1, a2, a3, rfl⟩ := list4_ex A hA
  obtain ⟨b0, b1, b2, b3, rfl⟩ := list4_ex B hB
  obtain ⟨c0, c1, c2, c3, rfl⟩ := list4_ex C hC
  obtain ⟨d0, d1, d2, d3, rfl⟩ := list4_ex D hD
  exact ⟨rfl, rfl, rfl, rfl⟩

theorem getCell_mem_row (g : Grid) (h : WF g) (y x : Nat) (hy : y < 4)
    (hx : x < 4) : ∃ r ∈ g, getCell g y x ∈ r := by
  obtain ⟨hlen, hrows⟩ := h
  have hy' : y < g.length := by omega
  refine ⟨g.getD y [], ?_, ?_⟩
  · rw [List.getD_eq_getElem g [] hy']
    exact List.getElem_mem hy'
  · have hrl : (g.getD y []).length = 4 := by
      apply hrows
      rw [List.getD_eq_getElem g [] hy']
      exact List.getElem_mem hy'
    rw [getCell, List.getD_eq_getElem (g.getD y []) Vacant (by omega)]
    exact List.getElem_mem _

theorem col_cells_mem (g : Grid) (h : WF g) (x : Nat) (hx : x < 4) :
    ∀ c ∈ col g x, ∃ r ∈ g, c ∈ r := by
  intro c hc
  rw [col] at hc
  rcases List.mem_cons.mp hc with h0 | hc
  · exact h0 ▸ getCell_mem_row g h 0 x (by omega) hx
  rcases List.mem_cons.mp hc with h0 | hc
  · exact h0 ▸ getCell_mem_row g h 1 x (by omega) hx
  rcases List.mem_cons.mp hc with h0 | hc
  · exact h0 ▸ getCell_mem_row g h 2 x (by omega) hx
  rcases List.mem_cons.mp hc with h0 | hc
  · exact h0 ▸ getCell_mem_row g h 3 x (by omega) hx
  · cases hc

theorem getCell_mem_col (g : Grid) (y x : Nat) (hy : y < 4) :
    getCell g y x ∈ col g x := by
  interval_cases y <;> simp [col]

theorem getCell_mem_of_row (g : Grid) (h : WF g) (y x : Nat) (hy : y < 4)
    (hx : x < 4) (r : Row) (hyr : g.getD y [] = r) : getCell g y x ∈ r := by
  obtain ⟨hlen, hrows⟩ := h
  have hrl : r.length = 4 := by
    apply hrows
    rw [← hyr, List.getD_eq_getElem g [] (by omega)]
    exact List.getElem_mem _
  rw [getCell, hyr, List.getD_eq_getElem r Vacant (by omega)]
  exact List.getElem_mem _

theorem homog_full (g : Grid) (h : WF g)
    (hrows : ∀ r ∈ g, (∀ c ∈ r, isTile c) ∨ (∀ c ∈ r, c = Vacant))
    (hcols : ∀ x, x < 4 →
      (∀ c ∈ col g x, isTile c) ∨ (∀ c ∈ col g x, c = Vacant))
    (ht : hasTileG g) : fullGrid g := by
  intro r hr c hc hcv
  subst hcv
  obtain ⟨rt, hrt, ct, hct, hctt⟩ := ht
  have hrv : ∀ x ∈ r, x = Vacant := by
    rcases hrows r hr with hall | hall
    · have := hall Vacant hc
      simp [isTile] at this
    · exact hall
  have hrtt : ∀ x ∈ rt, isTile x := by
    rcases hrows rt hrt with hall | hall
    · exact hall
    · rw [hall ct hct] at hctt
      simp [isTile] at hctt
  obtain ⟨yv, hyv, hgv⟩ := List.mem_iff_getElem.mp hr
  obtain ⟨yt, hyt, hgt⟩ := List.mem_iff_getElem.mp hrt
  have hyv4 : yv < 4 := by rw [h.1] at hyv; exact hyv
  have hyt4 : yt < 4 := by rw [h.1] at hyt; exact hyt
  have hgv' : g.getD yv [] = r := by
    rw [List.getD_eq_getElem g [] hyv]; exact hgv
  have hgt' : g.getD yt [] = rt := by
    rw [List.getD_eq_getElem g [] hyt]; exact hgt
  have hcv0 : getCell g yv 0 = Vacant :=
    hrv _ (getCell_mem_of_row g h yv 0 hyv4 (by omega) r hgv')
  have hct0 : isTile (getCell g yt 0) :=
    hrtt _ (getCell_mem_of_row g h yt 0 hyt4 (by omega) rt hgt')
  rcases hcols 0 (by omega) with hall | hall
  · have := hall _ (getCell_mem_col g yv 0 hyv4)
    rw [hcv0] at this
    simp [isTile] at this
  · have := hall _ (getCell_mem_col g yt 0 hyt4)
    rw [this] at hct0
    simp [isTile] at hct0

theorem hasLost_iff_no_move (g : Grid) (h : WF g) (hT : hasTileG g) :
    hasLost g ↔ ∀ d, move d g = g := by
  rw [hasLost_iff_struct g h]
  constructor
  · rintro ⟨hfull, hnadjR, hnadjC0, hnadjC1, hnadjC2, hnadjC3⟩ d
    have hrowfix : ∀ r ∈ g, leftLine r = r := fun r hr =>
      leftLine_of_stuck r (hfull r hr) (hnadjR r hr)
    have hrowfixR : ∀ r ∈ g, rightLine r = r := by
      intro r hr
      rw [rightLine_rev]
      rw [leftLine_of_stuck r.reverse
        (fun c hc => hfull r hr c (List.mem_reverse.mp hc))
        ((noAdjRow_reverse r).mpr (hnadjR r hr))]
      exact List.reverse_reverse r
    have hcolfull : ∀ x, x < 4 → ∀ c ∈ col g x, c ≠ Vacant := by
      intro x hx c hc
      obtain ⟨r, hr, hcr⟩ := col_cells_mem g h x hx c hc
      exact hfull r hr c hcr
    have hcolfixU : ∀ x, x < 4 → noAdjRow (col g x) →
        upLine (col g x) = col g x := by
      intro x hx hna
      rw [upLine_eq_leftLine]
      exact leftLine_of_stuck _ (hcolfull x hx) hna
    have hcolfixD : ∀ x, x < 4 → noAdjRow (col g x) →
        downLine (col g x) = col g x := by
      intro x hx hna
      rw [downLine_eq_rightLine, rightLine_rev]
      rw [leftLine_of_stuck (col g x).reverse
        (fun c hc => hcolfull x hx c (List.mem_reverse.mp hc))
        ((noAdjRow_reverse _).mpr hna)]
      exact List.reverse_reverse _
    cases d with
    | Left => exact map_id_of_fix g leftLine hrowfix
    | Right => exact map_id_of_fix g rightLine hrowfixR
    | Up =>
      show fromCols (upLine (col g 0)) (upLine (col g 1)) (upLine (col g 2))
        (upLine (col g 3)) = g
      rw [hcolfixU 0 (by omega) hnadjC0, hcolfixU 1 (by omega) hnadjC1,
        hcolfixU 2 (by omega) hnadjC2, hcolfixU 3 (by omega) hnadjC3]
      exact fromCols_cols g h
    | Down =>
      show fromCols (downLine (col g 0)) (downLine (col g 1))
        (downLine (col g 2)) (downLine (col g 3)) = g
      rw [hcolfixD 0 (by omega) hnadjC0, hcolfixD 1 (by omega) hnadjC1,
        hcolfixD 2 (by omega) hnadjC2, hcolfixD 3 (by omega) hnadjC3]
      exact fromCols_cols g h
  · intro hid
    have hIdL : g.map leftLine = g := hid MoveDirection.Left
    have hIdR : g.map rightLine = g := hid MoveDirection.Right
    have hIdU : fromCols (upLine (col g 0)) (upLine (col g 1))
        (upLine (col g 2)) (upLine (col g 3)) = g := hid MoveDirection.Up
    have hIdD : fromCols (downLine (col g 0)) (downLine (col g 1))
        (downLine (col g 2)) (downLine (col g 3)) = g := hid MoveDirection.Down
    have hLfix : ∀ r ∈ g, leftLine r = r := map_fix_of_mem g leftLine hIdL
    have hRfix : ∀ r ∈ g, rightLine r = r := map_fix_of_mem g rightLine hIdR
    obtain ⟨hcU0, hcU1, hcU2, hcU3⟩ := col_fromCols _ _ _ _
      (upLine_col_length g 0) (upLine_col_length g 1)
      (upLine_col_length g 2) (upLine_col_length g 3)
    have hU0 : upLine (col g 0) = col g 0 := by rw [← hcU0, hIdU]
    have hU1 : upLine (col g 1) = col g 1 := by rw [← hcU1, hIdU]
    have hU2 : upLine (col g 2) = col g 2 := by rw [← hcU2, hIdU]
    have hU3 : upLine (col g 3) = col g 3 := by rw [← hcU3, hIdU]
    obtain ⟨hcD0, hcD1, hcD2, hcD3⟩ := col_fromCols _ _ _ _
      (downLine_col_length g 0) (downLine_col_length g 1)
      (downLine_col_length g 2) (downLine_col_length g 3)
    have hD0 : downLine (col g 0) = col g 0 := by rw [← hcD0, hIdD]
    have hD1 : downLine (col g 1) = col g 1 := by rw [← hcD1, hIdD]
    have hD2 : downLine (col g 2) = col g 2 := by rw [← hcD2, hIdD]
    have hD3 : downLine (col g 3) = col g 3 := by rw [← hcD3, hIdD]
    have hULfix : ∀ x, x < 4 → leftLine (col g x) = col g x := by
      intro x hx
      rw [← upLine_eq_leftLine]
      interval_cases x
      · exact hU0
      · exact hU1
      · exact hU2
      · exact hU3
    have hDRfix : ∀ x, x < 4 → rightLine (col g x) = col g x := by
      intro x hx
      rw [← downLine_eq_rightLine]
      interval_cases x
      · exact hD0
      · exact hD1
      · exact hD2
      · exact hD3
    have hrowHom : ∀ r ∈ g, (∀ c ∈ r, isTile c) ∨ (∀ c ∈ r, c = Vacant) :=
      fun r hr => packed_homog r (leftLine_fix_packed r (hLfix r hr))
        (leftLine_fix_packed r.reverse (rightLine_fix r (hRfix r hr)))
    have hcolHom : ∀ x, x < 4 →
        (∀ c ∈ col g x, isTile c) ∨ (∀ c ∈ col g x, c = Vacant) :=
      fun x hx => packed_homog _ (leftLine_fix_packed _ (hULfix x hx))
        (leftLine_fix_packed _ (rightLine_fix _ (hDRfix x hx)))
    have hfull := homog_full g h hrowHom hcolHom hT
    have hnadjOf : ∀ r, (∀ c ∈ r, c ≠ Vacant) → leftLine r = r → noAdjRow r := by
      intro r hfr hfx
      have hcnt : tileCountL (mergeScanSpec r) = tileCountL r := by
        have hcc := congrArg tileCountL hfx
        rw [leftLine_eq_slideSpec, slideSpec, compactSpec_count] at hcc
        exact hcc
      exact mergeScanSpec_noadj_of_fix r hfr (mergeScanSpec_eq_self_of_count r hcnt)
    have hcolfull : ∀ x, x < 4 → ∀ c ∈ col g x, c ≠ Vacant := by
      intro x hx c hc
      obtain ⟨r, hr, hcr⟩ := col_cells_mem g h x hx c hc
      exact hfull r hr c hcr
    exact ⟨hfull,
      fun r hr => hnadjOf r (hfull r hr) (hLfix r hr),
      hnadjOf _ (hcolfull 0 (by omega)) (hULfix 0 (by omega)),
      hnadjOf _ (hcolfull 1 (by omega)) (hULfix 1 (by omega)),
      hnadjOf _ (hcolfull 2 (by omega)) (hULfix 2 (by omega)),
      hnadjOf _ (hcolfull 3 (by omega)) (hULfix 3 (by omega))⟩

/-- C4 counterexample: on the all-Vacant board no direction changes the
grid, yet `has_lost` (the spec's rotation-pair scan) is false, because every
adjacent pair is (Vacant, Vacant).  So "has_lost() is true iff no direction
would change the grid" fails as stated. -/
theorem C4_counterexample :
    ¬ hasLost emptyGrid ∧
      move MoveDirection.Up emptyGrid = emptyGrid ∧
      move MoveDirection.Down emptyGrid = emptyGrid ∧
      move MoveDirection.Left emptyGrid = emptyGrid ∧
      move MoveDirection.Right emptyGrid = emptyGrid :=
  ⟨by decide, by decide, by decide, by decide, by decide⟩

/-- C4 (amended): `has_lost()` is true exactly when the board has no Vacant
cell and no two horizontally or vertically adjacent equal Tile values; and
for every board holding at least one Tile this is further equivalent to no
direction changing the grid (the all-Vacant board is the exception: no
direction changes it, yet has_lost is false).  The modelled has_lost is a
pure function, so checking it does not mutate the caller's grid. -/
theorem C4_has_lost_amended (g : Grid) (h : WF g) :
    (hasLost g ↔ fullGrid g ∧ noAdjEq g) ∧
      (hasTileG g → (hasLost g ↔ ∀ d, move d g = g)) :=
  ⟨hasLost_iff_struct g h, fun hT => hasLost_iff_no_move g h hT⟩

/-- Witness for C4 at a concrete loss board. -/
theorem C4_has_lost_amended_witness :
    WF lostBoard ∧
      ((hasLost lostBoard ↔ fullGrid lostBoard ∧ noAdjEq lostBoard) ∧
        (hasTileG lostBoard →
          (hasLost lostBoard ↔ ∀ d, move d lostBoard = lostBoard))) :=
  ⟨⟨rfl, by decide⟩, C4_has_lost_amended lostBoard ⟨rfl, by decide⟩⟩

theorem countP_le_len (r : Row) : tileCountL r ≤ r.length := by
  rw [tileCountL]
  exact List.countP_le_length _

theorem leftLine_changed_count (r : Row) (hlen : r.length = 4)
    (hne : leftLine r ≠ r) : tileCountL (leftLine r) < 4 := by
  have hle := leftLine_count_le r
  have h4 : tileCountL r ≤ 4 := hlen ▸ countP_le_len r
  by_cases hc : tileCountL (leftLine r) = tileCountL r
  · by_cases hfull : tileCountL r = 4
    · exfalso
      have hall : ∀ c ∈ r, isTile c := by
        have := List.countP_eq_length.mp (by rw [← hlen] at hfull; exact hfull)
        intro c hc2
        exact this c hc2
      have hfull' : ∀ c ∈ r, c ≠ Vacant := by
        intro c hc2 hv
        have := hall c hc2
        rw [hv] at this
        simp [isTile] at this
      have hcm : tileCountL (mergeScanSpec r) = tileCountL r := by
        have he := hc
        rw [leftLine_eq_slideSpec, slideSpec, compactSpec_count] at he
        exact he
      have hm := mergeScanSpec_eq_self_of_count r hcm
      exact hne (by
        rw [leftLine_eq_slideSpec, slideSpec, hm, compactSpec_of_full r hfull'])
    · omega
  · omega

theorem rightLine_changed_count (r : Row) (hlen : r.length = 4)
    (hne : rightLine r ≠ r) : tileCountL (rightLine r) < 4 := by
  have hne2 : leftLine r.reverse ≠ r.reverse := by
    intro he
    exact hne (by rw [rightLine_rev, he, List.reverse_reverse])
  have := leftLine_changed_count r.reverse (by simpa using hlen) hne2
  rw [rightLine_rev, tileCountL_reverse]
  exact this

theorem vacant_of_count_lt (r : Row) (hlen : r.length = 4)
    (hc : tileCountL r < 4) : Vacant ∈ r := by
  by_contra hv
  have hall : ∀ c ∈ r, isTile c := by
    intro c hcm
    cases hcc : c with
    | Vacant => exact absurd (hcc ▸ hcm) hv
    | Tile t => rfl
  have : tileCountL r = r.length := List.countP_eq_length.mpr hall
  omega

theorem mem_getD_idx (r : Row) (hlen : r.length = 4) (hm : Vacant ∈ r) :
    ∃ i, i < 4 ∧ r.getD i Vacant = Vacant := by
  obtain ⟨i, hi, hgi⟩ := List.mem_iff_getElem.mp hm
  refine ⟨i, by omega, ?_⟩
  rw [List.getD_eq_getElem r Vacant hi, hgi]

theorem allCoords_bounds : ∀ p ∈ allCoords, p.1 < 4 ∧ p.2 < 4 := by decide

theorem mem_allCoords (y x : Nat) (hy : y < 4) (hx : x < 4) :
    (y, x) ∈ allCoords := by
  interval_cases y <;> interval_cases x <;> decide

theorem vacantCoords_ne_nil (G : Grid) (y x : Nat) (hy : y < 4) (hx : x < 4)
    (hv : getCell G y x = Vacant) : vacantCoords G ≠ [] := by
  apply List.ne_nil_of_mem
  show (y, x) ∈ vacantCoords G
  rw [vacantCoords, List.mem_filter]
  exact ⟨mem_allCoords y x hy hx, by simp [hv]⟩

theorem getCell_col_getD (G : Grid) (y x : Nat) (hy : y < 4) :
    getCell G y x = (col G x).getD y Vacant := by
  interval_cases y <;> rfl

theorem map_line_getD (g : Grid) (f : Row → Row) (hf : f [] = []) (y : Nat) :
    (g.map f).getD y [] = f (g.getD y []) := by
  by_cases hy : y < g.length
  · rw [List.getD_eq_getElem (g.map f) [] (by simpa using hy),
      List.getElem_map, List.getD_eq_getElem g [] hy]
  · rw [List.getD_eq_default _ _ (by simpa using Nat.le_of_not_lt hy),
      List.getD_eq_default _ _ (Nat.le_of_not_lt hy), hf]

theorem leftLine_nil : leftLine [] = [] := rfl

theorem rightLine_nil : rightLine [] = [] := rfl

theorem move_changed_vacant (g : Grid) (d : MoveDirection) (h : WF g)
    (hne : move d g ≠ g) : vacantCoords (move d g) ≠ [] := by
  cases d with
  | Left =>
    have hex : ∃ r ∈ g, leftLine r ≠ r := by
      by_contra hall
      push_neg at hall
      exact hne (map_id_of_fix g leftLine hall)
    obtain ⟨r, hr, hner⟩ := hex
    obtain ⟨y, hy, hgy⟩ := List.mem_iff_getElem.mp hr
    have hrlen : r.length = 4 := h.2 r hr
    have hvac : Vacant ∈ leftLine r :=
      vacant_of_count_lt _ (by rw [leftLine_length]; exact hrlen)
        (leftLine_changed_count r hrlen hner)
    obtain ⟨x, hx, hgx⟩ := mem_getD_idx _ (by rw [leftLine_length]; exact hrlen) hvac
    apply vacantCoords_ne_nil _ y x (by rw [h.1] at hy; exact hy) hx
    show getCell (g.map leftLine) y x = Vacant
    rw [getCell, map_line_getD g leftLine leftLine_nil y,
      List.getD_eq_getElem g [] hy, hgy, hgx]
  | Right =>
    have hex : ∃ r ∈ g, rightLine r ≠ r := by
      by_contra hall
      push_neg at hall
      exact hne (map_id_of_fix g rightLine hall)
    obtain ⟨r, hr, hner⟩ := hex
    obtain ⟨y, hy, hgy⟩ := List.mem_iff_getElem.mp hr
    have hrlen : r.length = 4 := h.2 r hr
    have hvac : Vacant ∈ rightLine r :=
      vacant_of_count_lt _ (by rw [rightLine_length]; exact hrlen)
        (rightLine_changed_count r hrlen hner)
    obtain ⟨x, hx, hgx⟩ := mem_getD_idx _ (by rw [rightLine_length]; exact hrlen) hvac
    apply vacantCoords_ne_nil _ y x (by rw [h.1] at hy; exact hy) hx
    show getCell (g.map rightLine) y x = Vacant
    rw [getCell, map_line_getD g rightLine rightLine_nil y,
      List.getD_eq_getElem g [] hy, hgy, hgx]
  | Up =>
    obtain ⟨hc0, hc1, hc2, hc3⟩ := col_fromCols _ _ _ _
      (upLine_col_length g 0) (upLine_col_length g 1)
      (upLine_col_length g 2) (upLine_col_length g 3)
    have hex : ∃ i, i < 4 ∧ upLine (col g i) ≠ col g i := by
      by_contra hall
      push_neg at hall
      refine hne ?_
      show fromCols (upLine (col g 0)) (upLine (col g 1)) (upLine (col g 2))
        (upLine (col g 3)) = g
      rw [hall 0 (by omega), hall 1 (by omega), hall 2 (by omega),
        hall 3 (by omega)]
      exact fromCols_cols g h
    obtain ⟨i, hi, hnei⟩ := hex
    have hnel : leftLine (col g i) ≠ col g i := by
      rw [← upLine_eq_leftLine]
      exact hnei
    have hvac : Vacant ∈ upLine (col g i) := by
      rw [upLine_eq_leftLine]
      exact vacant_of_count_lt _ (by rw [leftLine_length]; rfl)
        (leftLine_changed_count (col g i) rfl hnel)
    obtain ⟨y, hy, hgy⟩ := mem_getD_idx _ (upLine_col_length g i) hvac
    apply vacantCoords_ne_nil _ y i hy hi
    rw [getCell_col_getD _ y i hy]
    have hcoli : col (move MoveDirection.Up g) i = upLine (col g i) := by
      show col (fromCols (upLine (col g 0)) (upLine (col g 1))
        (upLine (col g 2)) (upLine (col g 3))) i = _
      interval_cases i
      · exact hc0
      · exact hc1
      · exact hc2
      · exact hc3
    rw [hcoli, hgy]
  | Down =>
    obtain ⟨hc0, hc1, hc2, hc3⟩ := col_fromCols _ _ _ _
      (downLine_col_length g 0) (downLine_col_length g 1)
      (downLine_col_length g 2) (downLine_col_length g 3)
    have hex : ∃ i, i < 4 ∧ downLine (col g i) ≠ col g i := by
      by_contra hall
      push_neg at hall
      refine hne ?_
      show fromCols (downLine (col g 0)) (downLine (col g 1))
        (downLine (col g 2)) (downLine (col g 3)) = g
      rw [hall 0 (by omega), hall 1 (by omega), hall 2 (by omega),
        hall 3 (by omega)]
      exact fromCols_cols g h
    obtain ⟨i, hi, hnei⟩ := hex
    have hner : rightLine (col g i) ≠ col g i := by
      rw [← downLine_eq_rightLine]
      exact hnei
    have hvac : Vacant ∈ downLine (col g i) := by
      rw [downLine_eq_rightLine]
      exact vacant_of_count_lt _ (by rw [rightLine_length]; rfl)
        (rightLine_changed_count (col g i) rfl hner)
    obtain ⟨y, hy, hgy⟩ := mem_getD_idx _ (downLine_col_length g i) hvac
    apply vacantCoords_ne_nil _ y i hy hi
    rw [getCell_col_getD _ y i hy]
    have hcoli : col (move MoveDirection.Down g) i = downLine (col g i) := by
      show col (fromCols (downLine (col g 0)) (downLine (col g 1))
        (downLine (col g 2)) (downLine (col g 3))) i = _
      interval_cases i
      · exact hc0
      · exact hc1
      · exact hc2
      · exact hc3
    rw [hcoli, hgy]

theorem tileCountG_cons (r : Row) (rest : Grid) :
    tileCountG (r :: rest) = tileCountL r + tileCountG rest := by
  simp [tileCountG]

theorem tileCountL_set (r : Row) (i : Nat) (hi : i < r.length)
    (hv : r.getD i Vacant = Vacant) (v : Nat) :
    tileCountL (r.set i (Tile v)) = tileCountL r + 1 := by
  induction r generalizing i with
  | nil => simp at hi
  | cons a rest ih =>
    cases i with
    | zero =>
      simp only [List.getD_cons_zero] at hv
      subst hv
      simp [tileCountL, List.countP_cons, isTile]
    | succ n =>
      simp only [List.getD_cons_succ] at hv
      simp only [List.set_cons_succ, tileCountL, List.countP_cons]
      have := ih n (by simpa using Nat.lt_of_succ_lt_succ hi) hv
      simp only [tileCountL] at this
      omega

theorem tileCountG_set (g : Grid) (y : Nat) (hy : y < g.length) (r2 : Row) :
    tileCountG (g.set y r2) + tileCountL (g.getD y []) =
      tileCountG g + tileCountL r2 := by
  induction g generalizing y with
  | nil => simp at hy
  | cons a rest ih =>
    cases y with
    | zero =>
      simp only [List.set_cons_zero, List.getD_cons_zero, tileCountG_cons]
      omega
    | succ n =>
      simp only [List.set_cons_succ, List.getD_cons_succ, tileCountG_cons]
      have := ih n (by simpa using Nat.lt_of_succ_lt_succ hy)
      omega

theorem setCell_tileCountG (g : Grid) (h : WF g) (y x : Nat)
    (hy : y < 4) (hx : x < 4) (hv : getCell g y x = Vacant) (v : Nat) :
    tileCountG (setCell g y x (Tile v)) = tileCountG g + 1 := by
  have hyl : y < g.length := by rw [h.1]; exact hy
  have hrow : (g.getD y []) ∈ g := by
    rw [List.getD_eq_getElem g [] hyl]
    exact List.getElem_mem hyl
  have hrl : (g.getD y []).length = 4 := h.2 _ hrow
  have hset := tileCountG_set g y hyl ((g.getD y []).set x (Tile v))
  have hcl := tileCountL_set (g.getD y []) x (by rw [hrl]; exact hx) hv v
  rw [setCell]
  omega

theorem getD_mem_of_lt {α : Type} (l : List α) (i : Nat) (d : α)
    (hi : i < l.length) : l.getD i d ∈ l := by
  rw [List.getD_eq_getElem l d hi]
  exact List.getElem_mem hi

theorem spawnTile_count (g : Grid) (rnd : Nat) (four : Bool) (h : WF g)
    (hv : vacantCoords g ≠ []) :
    tileCountG (spawnTile g rnd four) = tileCountG g + 1 := by
  have hne : ¬((vacantCoords g).isEmpty = true) := by
    simpa [List.isEmpty_iff] using hv
  have hlen : 0 < (vacantCoords g).length := List.length_pos.mpr hv
  have hidx : rnd % (vacantCoords g).length < (vacantCoords g).length :=
    Nat.mod_lt _ hlen
  have hp : (vacantCoords g).getD (rnd % (vacantCoords g).length) (0, 0) ∈
      vacantCoords g := getD_mem_of_lt _ _ _ hidx
  rw [vacantCoords, List.mem_filter] at hp
  obtain ⟨hpc, hpv⟩ := hp
  have hb := allCoords_bounds _ hpc
  rw [spawnTile]
  simp only [if_neg hne]
  exact setCell_tileCountG g h _ _ hb.1 hb.2 (by simpa using hpv) _

theorem WF_fromCols (c0 c1 c2 c3 : Row) : WF (fromCols c0 c1 c2 c3) := by
  refine ⟨rfl, ?_⟩
  intro r hr
  simp only [fromCols, List.mem_cons, List.not_mem_nil, or_false] at hr
  rcases hr with rfl | rfl | rfl | rfl <;> rfl

theorem move_WF (d : MoveDirection) (g : Grid) (h : WF g) : WF (move d g) := by
  cases d with
  | Up => exact WF_fromCols _ _ _ _
  | Down => exact WF_fromCols _ _ _ _
  | Left =>
    refine ⟨by rw [show move MoveDirection.Left g = g.map leftLine from rfl,
      List.length_map]; exact h.1, ?_⟩
    intro r hr
    rw [show move MoveDirection.Left g = g.map leftLine from rfl] at hr
    obtain ⟨r0, hr0, rfl⟩ := List.mem_map.mp hr
    rw [leftLine_length]
    exact h.2 r0 hr0
  | Right =>
    refine ⟨by rw [show move MoveDirection.Right g = g.map rightLine from rfl,
      List.length_map]; exact h.1, ?_⟩
    intro r hr
    rw [show move MoveDirection.Right g = g.map rightLine from rfl] at hr
    obtain ⟨r0, hr0, rfl⟩ := List.mem_map.mp hr
    rw [rightLine_length]
    exact h.2 r0 hr0

/-- C2: after a directional move triggered by a button press, a new tile is
spawned on a vacant space if and only if the move changed the grid.  With
the spawn modelled from the spec (absent from the lib.rs snapshot): when
the move leaves the grid unchanged the board is returned as is, and when
it changes the grid exactly one tile is added (the changed grid always has
a vacant cell to receive it). -/
theorem C2_spawn_iff_changed (g : Grid) (d : MoveDirection) (rnd : Nat)
    (four : Bool) (h : WF g) :
    (move d g = g → moveSpawn d g rnd four = g) ∧
    (move d g ≠ g →
      tileCountG (moveSpawn d g rnd four) = tileCountG (move d g) + 1) := by
  constructor
  · intro he
    simp only [moveSpawn]
    rw [if_pos he]
    exact he
  · intro hne
    have hv := move_changed_vacant g d h hne
    have hwf := move_WF d g h
    simp only [moveSpawn]
    rw [if_neg hne]
    exact spawnTile_count (move d g) rnd four hwf hv

theorem C2_spawn_iff_changed_witness :
    move MoveDirection.Up sampleBoard ≠ sampleBoard ∧
    tileCountG (moveSpawn MoveDirection.Up sampleBoard 0 false) =
      tileCountG (move MoveDirection.Up sampleBoard) + 1 :=
  ⟨by decide,
    (C2_spawn_iff_changed sampleBoard MoveDirection.Up 0 false
      ⟨rfl, by decide⟩).2 (by decide)⟩

theorem getD_eq_tile_lt (r : Row) (x t : Nat)
    (h : r.getD x Vacant = Tile t) : x < r.length := by
  by_contra hx
  rw [List.getD_eq_default _ _ (Nat.le_of_not_lt hx)] at h
  cases h

theorem getD_append_len (pre post : Row) (b : BoardSpace) :
    (pre ++ b :: post).getD pre.length Vacant = b := by
  induction pre with
  | nil => rfl
  | cons a pre ih => simpa using ih

theorem getD_drop_add (r : Row) (s k : Nat) :
    (r.drop s).getD k Vacant = r.getD (s + k) Vacant := by
  by_cases hk : s + k < r.length
  · rw [List.getD_eq_getElem _ _ (by rw [List.length_drop]; omega),
      List.getD_eq_getElem _ _ hk]
    exact List.getElem_drop r
  · rw [List.getD_eq_default _ _ (by rw [List.length_drop]; omega),
      List.getD_eq_default _ _ (by omega)]

theorem firstTileFrom_facts (r : Row) (s j v : Nat)
    (h : firstTileFrom r s = some (j, v)) :
    s ≤ j ∧ j < r.length ∧ r.getD j Vacant = Tile v := by
  obtain ⟨pre, post, hdrop, hlen, hvac⟩ :=
    firstTileAux_some (r.drop s) s j v h
  have hdl : r.length - s = pre.length + (post.length + 1) := by
    rw [← List.length_drop, hdrop]
    simp
  have hsl : s < r.length := by
    by_contra hs
    omega
  refine ⟨by omega, by omega, ?_⟩
  have : r.getD (s + pre.length) Vacant = Tile v := by
    rw [← getD_drop_add, hdrop, getD_append_len]
  rw [show j = s + pre.length by omega]
  exact this

theorem firstTileBelow_getD (r : Row) :
    ∀ x x2 v, firstTileBelow r x = some (x2, v) →
      r.getD x2 Vacant = Tile v := by
  intro x
  induction x with
  | zero => intro x2 v h; cases h
  | succ x ih =>
    intro x2 v h
    rw [firstTileBelow] at h
    cases hc : r.getD x Vacant with
    | Tile w =>
      rw [hc] at h
      injection h with h2
      injection h2 with ha hb
      rw [← ha, ← hb]
      exact hc
    | Vacant =>
      rw [hc] at h
      exact ih x2 v h

theorem getD_set_ne (r : Row) (i j : Nat) (b : BoardSpace) (hij : i ≠ j) :
    (r.set i b).getD j Vacant = r.getD j Vacant := by
  by_cases hj : j < r.length
  · rw [List.getD_eq_getElem _ _ (by rw [List.length_set]; exact hj),
      List.getD_eq_getElem _ _ hj]
    exact List.getElem_set_ne hij _
  · rw [List.getD_eq_default _ _ (by rw [List.length_set]; omega),
      List.getD_eq_default _ _ (by omega)]

theorem countP_set (r : Row) :
    ∀ i, i < r.length → ∀ b,
      tileCountL (r.set i b) + (if isTile (r.getD i Vacant) then 1 else 0) =
        tileCountL r + (if isTile b then 1 else 0) := by
  induction r with
  | nil => intro i hi; simp at hi
  | cons a rest ih =>
    intro i hi b
    cases i with
    | zero =>
      simp only [List.set_cons_zero, List.getD_cons_zero, tileCountL,
        List.countP_cons]
      omega
    | succ n =>
      simp only [List.set_cons_succ, List.getD_cons_succ, tileCountL,
        List.countP_cons]
      have := ih n (by simpa using Nat.lt_of_succ_lt_succ hi) b
      simp only [tileCountL] at this
      omega

theorem merge_count_drop (r : Row) (x x2 t tb : Nat)
    (hx : r.getD x Vacant = Tile t) (hx2 : r.getD x2 Vacant = Tile tb)
    (hne : x ≠ x2) :
    tileCountL ((r.set x (Tile (t * 2))).set x2 Vacant) + 1 = tileCountL r := by
  have hxl : x < r.length := getD_eq_tile_lt r x t hx
  have hx2l : x2 < r.length := getD_eq_tile_lt r x2 tb hx2
  have c1 := countP_set r x hxl (Tile (t * 2))
  rw [hx] at c1
  have hg : (r.set x (Tile (t * 2))).getD x2 Vacant = Tile tb := by
    rw [getD_set_ne r x x2 _ hne]
    exact hx2
  have c2 := countP_set (r.set x (Tile (t * 2))) x2
    (by rw [List.length_set]; exact hx2l) Vacant
  rw [hg] at c2
  simp [isTile_tile, isTile_vacant] at c1 c2
  omega

theorem leftMergeAtS_fst (rs : Row × Nat) (x : Nat) :
    (leftMergeAtS rs x).1 = leftMergeAt rs.1 x := by
  rw [leftMergeAtS, leftMergeAt]
  cases rs.1.getD x Vacant with
  | Vacant => rfl
  | Tile t =>
    cases firstTileFrom rs.1 (x + 1) with
    | none => rfl
    | some p =>
      obtain ⟨x2, t2⟩ := p
      by_cases ht : t2 = t
      · simp only [if_pos ht]
      · simp only [if_neg ht]

theorem rightMergeAtS_fst (rs : Row × Nat) (x : Nat) :
    (rightMergeAtS rs x).1 = rightMergeAt rs.1 x := by
  rw [rightMergeAtS, rightMergeAt]
  cases rs.1.getD x Vacant with
  | Vacant => rfl
  | Tile t =>
    cases firstTileBelow rs.1 x with
    | none => rfl
    | some p =>
      obtain ⟨x2, t2⟩ := p
      by_cases ht : t2 = t
      · simp only [if_pos ht]
      · simp only [if_neg ht]

theorem leftMergeAtS_dichotomy (rs : Row × Nat) (x : Nat) :
    leftMergeAtS rs x = rs ∨
      ((∃ t, (leftMergeAtS rs x).2 = rs.2 + t * 2) ∧
        tileCountL (leftMergeAtS rs x).1 + 1 = tileCountL rs.1) := by
  cases h1 : rs.1.getD x Vacant with
  | Vacant => left; rw [leftMergeAtS, h1]
  | Tile t =>
    cases h2 : firstTileFrom rs.1 (x + 1) with
    | none => left; rw [leftMergeAtS, h1, h2]
    | some p =>
      obtain ⟨x2, t2⟩ := p
      by_cases ht : t2 = t
      · right
        subst ht
        obtain ⟨hle, hlt, hget⟩ := firstTileFrom_facts rs.1 (x + 1) x2 t2 h2
        have hred : leftMergeAtS rs x =
            ((rs.1.set x (Tile (t2 * 2))).set x2 Vacant, rs.2 + t2 * 2) := by
          rw [leftMergeAtS, h1, h2]
          simp
        rw [hred]
        exact ⟨⟨t2, rfl⟩,
          merge_count_drop rs.1 x x2 t2 t2 h1 hget (by omega)⟩
      · left
        rw [leftMergeAtS, h1, h2]
        simp [ht]

theorem rightMergeAtS_dichotomy (rs : Row × Nat) (x : Nat) :
    rightMergeAtS rs x = rs ∨
      ((∃ t, (rightMergeAtS rs x).2 = rs.2 + t * 2) ∧
        tileCountL (rightMergeAtS rs x).1 + 1 = tileCountL rs.1) := by
  cases h1 : rs.1.getD x Vacant with
  | Vacant => left; rw [rightMergeAtS, h1]
  | Tile t =>
    cases h2 : firstTileBelow rs.1 x with
    | none => left; rw [rightMergeAtS, h1, h2]
    | some p =>
      obtain ⟨x2, t2⟩ := p
      by_cases ht : t2 = t
      · right
        subst ht
        have hget := firstTileBelow_getD rs.1 x x2 t2 h2
        have hx2 : x2 < x := firstTileBelow_lt rs.1 x _ h2
        have hred : rightMergeAtS rs x =
            ((rs.1.set x (Tile (t2 * 2))).set x2 Vacant, rs.2 + t2 * 2) := by
          rw [rightMergeAtS, h1, h2]
          simp
        rw [hred]
        exact ⟨⟨t2, rfl⟩,
          merge_count_drop rs.1 x x2 t2 t2 h1 hget (by omega)⟩
      · left
        rw [rightMergeAtS, h1, h2]
        simp [ht]

theorem foldl_dichotomy (step : Row × Nat → Nat → Row × Nat)
    (hd : ∀ rs x, step rs x = rs ∨
      ((∃ t, (step rs x).2 = rs.2 + t * 2) ∧
        tileCountL (step rs x).1 + 1 = tileCountL rs.1)) :
    ∀ (xs : List Nat) (rs : Row × Nat),
      rs.2 ≤ (xs.foldl step rs).2 ∧
      tileCountL (xs.foldl step rs).1 ≤ tileCountL rs.1 ∧
      (tileCountL (xs.foldl step rs).1 = tileCountL rs.1 →
        xs.foldl step rs = rs) := by
  intro xs
  induction xs with
  | nil => intro rs; exact ⟨Nat.le_refl _, Nat.le_refl _, fun _ => rfl⟩
  | cons x xs ih =>
    intro rs
    obtain ⟨ihm, ihc, ihe⟩ := ih (step rs x)
    simp only [List.foldl_cons]
    rcases hd rs x with heq | ⟨⟨t, hsnd⟩, hcnt⟩
    · rw [heq] at ihm ihc ihe ⊢
      exact ⟨ihm, ihc, ihe⟩
    · refine ⟨?_, by omega, ?_⟩
      · calc rs.2 ≤ (step rs x).2 := by omega
          _ ≤ (xs.foldl step (step rs x)).2 := ihm
      · intro hce
        omega

theorem foldl_fst_eq (stepS : Row × Nat → Nat → Row × Nat)
    (step : Row → Nat → Row)
    (hf : ∀ rs x, (stepS rs x).1 = step rs.1 x) :
    ∀ (xs : List Nat) (rs : Row × Nat),
      (xs.foldl stepS rs).1 = xs.foldl step rs.1 := by
  intro xs
  induction xs with
  | nil => intro rs; rfl
  | cons x xs ih =>
    intro rs
    simp only [List.foldl_cons]
    rw [ih (stepS rs x), hf rs x]

theorem leftMergePassS_fst (r : Row) (s : Nat) :
    (leftMergePassS r s).1 = leftMergePass r :=
  foldl_fst_eq leftMergeAtS leftMergeAt leftMergeAtS_fst
    (List.range r.length) (r, s)

theorem rightMergePassS_fst (r : Row) (s : Nat) :
    (rightMergePassS r s).1 = rightMergePass r :=
  foldl_fst_eq rightMergeAtS rightMergeAt rightMergeAtS_fst
    (List.range r.length).reverse (r, s)

theorem lineScoreL_fst (r : Row) (s : Nat) :
    (lineScoreL r s).1 = leftLine r := by
  show leftCompactPass (leftMergePassS r s).1 = leftLine r
  rw [leftMergePassS_fst]
  rfl

theorem lineScoreR_fst (r : Row) (s : Nat) :
    (lineScoreR r s).1 = rightLine r := by
  show rightCompactPass (rightMergePassS r s).1 = rightLine r
  rw [rightMergePassS_fst]
  rfl

theorem lineScoreL_mono (r : Row) (s : Nat) : s ≤ (lineScoreL r s).2 :=
  (foldl_dichotomy leftMergeAtS leftMergeAtS_dichotomy
    (List.range r.length) (r, s)).1

theorem lineScoreR_mono (r : Row) (s : Nat) : s ≤ (lineScoreR r s).2 :=
  (foldl_dichotomy rightMergeAtS rightMergeAtS_dichotomy
    (List.range r.length).reverse (r, s)).1

theorem rightCompactPass_count (q : Row) :
    tileCountL (rightCompactPass q) = tileCountL q := by
  rw [rightCompactPass_rev, upCompactPass_eq_left, tileCountL_reverse,
    leftCompactPass_eq_spec, compactSpec_count, tileCountL_reverse]

theorem lineScoreL_fix (r : Row)
    (hc : tileCountL (leftLine r) = tileCountL r) :
    ∀ s, (lineScoreL r s).2 = s := by
  intro s
  have hmc : tileCountL (leftMergePass r) = tileCountL r := by
    have hcc : tileCountL (leftLine r) = tileCountL (leftMergePass r) := by
      rw [leftLine, leftCompactPass_eq_spec, compactSpec_count]
    omega
  have hkey := (foldl_dichotomy leftMergeAtS leftMergeAtS_dichotomy
    (List.range r.length) (r, s)).2.2
  have hcc2 : tileCountL ((List.range r.length).foldl leftMergeAtS (r, s)).1 =
      tileCountL (r, s).1 := by
    show tileCountL (leftMergePassS r s).1 = tileCountL r
    rw [leftMergePassS_fst]
    exact hmc
  have hfix := hkey hcc2
  show (leftMergePassS r s).2 = s
  rw [show leftMergePassS r s =
    (List.range r.length).foldl leftMergeAtS (r, s) from rfl, hfix]

theorem lineScoreR_fix (r : Row)
    (hc : tileCountL (rightLine r) = tileCountL r) :
    ∀ s, (lineScoreR r s).2 = s := by
  intro s
  have hmc : tileCountL (rightMergePass r) = tileCountL r := by
    have hcc : tileCountL (rightLine r) = tileCountL (rightMergePass r) := by
      rw [rightLine, rightCompactPass_count]
    omega
  have hkey := (foldl_dichotomy rightMergeAtS rightMergeAtS_dichotomy
    (List.range r.length).reverse (r, s)).2.2
  have hcc2 : tileCountL
      (((List.range r.length).reverse).foldl rightMergeAtS (r, s)).1 =
      tileCountL (r, s).1 := by
    show tileCountL (rightMergePassS r s).1 = tileCountL r
    rw [rightMergePassS_fst]
    exact hmc
  have hfix := hkey hcc2
  show (rightMergePassS r s).2 = s
  rw [show rightMergePassS r s =
    ((List.range r.length).reverse).foldl rightMergeAtS (r, s) from rfl, hfix]

theorem linesScore_fst (f : Row → Nat → Row × Nat) (fp : Row → Row)
    (hf : ∀ r s, (f r s).1 = fp r) :
    ∀ (rows : List Row) (s : Nat), (linesScore f rows s).1 = rows.map fp := by
  intro rows
  induction rows with
  | nil => intro s; rfl
  | cons r rest ih =>
    intro s
    show (f r s).1 :: (linesScore f rest (f r s).2).1 = fp r :: rest.map fp
    rw [hf, ih]

theorem linesScore_mono (f : Row → Nat → Row × Nat)
    (hm : ∀ r s, s ≤ (f r s).2) :
    ∀ (rows : List Row) (s : Nat), s ≤ (linesScore f rows s).2 := by
  intro rows
  induction rows with
  | nil => intro s; exact Nat.le_refl s
  | cons r rest ih =>
    intro s
    show s ≤ (linesScore f rest (f r s).2).2
    exact Nat.le_trans (hm r s) (ih _)

theorem linesScore_fix (f : Row → Nat → Row × Nat) (P : Row → Prop)
    (hz : ∀ r, P r → ∀ s, (f r s).2 = s) :
    ∀ (rows : List Row) (s : Nat), (∀ r ∈ rows, P r) →
      (linesScore f rows s).2 = s := by
  intro rows
  induction rows with
  | nil => intro s _; rfl
  | cons r rest ih =>
    intro s hall
    show (linesScore f rest (f r s).2).2 = s
    rw [ih ((f r s).2) (fun q hq => hall q (List.mem_cons_of_mem _ hq))]
    exact hz r (hall r (List.mem_cons_self r rest)) s

theorem sum_map_eq_pointwise {α : Type} (l : List α) (f g2 : α → Nat)
    (hle : ∀ a ∈ l, f a ≤ g2 a)
    (hs : (l.map f).sum = (l.map g2).sum) :
    ∀ a ∈ l, f a = g2 a := by
  induction l with
  | nil => intro a ha; cases ha
  | cons b rest ih =>
    have hrest : (rest.map f).sum ≤ (rest.map g2).sum :=
      List.sum_le_sum (fun i hi => hle i (List.mem_cons_of_mem _ hi))
    simp only [List.map_cons, List.sum_cons] at hs
    have hb : f b ≤ g2 b := hle b (List.mem_cons_self b rest)
    have hfb : f b = g2 b := by omega
    intro a ha
    rcases List.mem_cons.mp ha with rfl | hm
    · exact hfb
    · exact ih (fun q hq => hle q (List.mem_cons_of_mem _ hq)) (by omega) a hm

theorem move_left_count_pointwise (g : Grid)
    (hc : tileCountG (move MoveDirection.Left g) = tileCountG g) :
    ∀ r ∈ g, tileCountL (leftLine r) = tileCountL r := by
  have hmm : tileCountG (g.map leftLine) =
      (g.map fun r => tileCountL (leftLine r)).sum := by
    rw [tileCountG, List.map_map]
    rfl
  have hs : (g.map fun r => tileCountL (leftLine r)).sum =
      (g.map tileCountL).sum := by
    rw [← hmm]
    exact hc
  exact sum_map_eq_pointwise g _ _ (fun r _ => leftLine_count_le r) hs

theorem move_right_count_pointwise (g : Grid)
    (hc : tileCountG (move MoveDirection.Right g) = tileCountG g) :
    ∀ r ∈ g, tileCountL (rightLine r) = tileCountL r := by
  have hmm : tileCountG (g.map rightLine) =
      (g.map fun r => tileCountL (rightLine r)).sum := by
    rw [tileCountG, List.map_map]
    rfl
  have hs : (g.map fun r => tileCountL (rightLine r)).sum =
      (g.map tileCountL).sum := by
    rw [← hmm]
    exact hc
  exact sum_map_eq_pointwise g _ _ (fun r _ => rightLine_count_le r) hs

theorem move_up_count_pointwise (g : Grid) (h : WF g)
    (hc : tileCountG (move MoveDirection.Up g) = tileCountG g) :
    ∀ i, i < 4 → tileCountL (upLine (col g i)) = tileCountL (col g i) := by
  have hf : tileCountG (move MoveDirection.Up g) =
      tileCountL (upLine (col g 0)) + tileCountL (upLine (col g 1)) +
      tileCountL (upLine (col g 2)) + tileCountL (upLine (col g 3)) :=
    tileCountG_fromCols _ _ _ _ (upLine_col_length g 0)
      (upLine_col_length g 1) (upLine_col_length g 2) (upLine_col_length g 3)
  have hg := tileCountG_cols g h
  have l0 := upLine_count_le (col g 0)
  have l1 := upLine_count_le (col g 1)
  have l2 := upLine_count_le (col g 2)
  have l3 := upLine_count_le (col g 3)
  intro i hi
  interval_cases i <;> omega

theorem move_down_count_pointwise (g : Grid) (h : WF g)
    (hc : tileCountG (move MoveDirection.Down g) = tileCountG g) :
    ∀ i, i < 4 → tileCountL (downLine (col g i)) = tileCountL (col g i) := by
  have hf : tileCountG (move MoveDirection.Down g) =
      tileCountL (downLine (col g 0)) + tileCountL (downLine (col g 1)) +
      tileCountL (downLine (col g 2)) + tileCountL (downLine (col g 3)) :=
    tileCountG_fromCols _ _ _ _ (downLine_col_length g 0)
      (downLine_col_length g 1) (downLine_col_length g 2)
      (downLine_col_length g 3)
  have hg := tileCountG_cols g h
  have l0 := downLine_count_le (col g 0)
  have l1 := downLine_count_le (col g 1)
  have l2 := downLine_count_le (col g 2)
  have l3 := downLine_count_le (col g 3)
  intro i hi
  interval_cases i <;> omega

theorem leftMergeAtS_merge (rs : Row × Nat) (x t x2 : Nat)
    (h1 : rs.1.getD x Vacant = Tile t)
    (h2 : firstTileFrom rs.1 (x + 1) = some (x2, t)) :
    (leftMergeAtS rs x).2 = rs.2 + t * 2 := by
  rw [leftMergeAtS, h1, h2]
  simp

theorem rightMergeAtS_merge (rs : Row × Nat) (x t x2 : Nat)
    (h1 : rs.1.getD x Vacant = Tile t)
    (h2 : firstTileBelow rs.1 x = some (x2, t)) :
    (rightMergeAtS rs x).2 = rs.2 + t * 2 := by
  rw [rightMergeAtS, h1, h2]
  simp

/-- C6: the score is monotonically non-decreasing across a move and
increases only when a merge creates a tile.  With the score accumulator
modelled from the spec (absent from the lib.rs snapshot): the instrumented
move computes exactly the same grid as `move`; the score never decreases;
if the move merges nothing (the occupied-cell count is unchanged — every
merge removes exactly one occupied cell) the score is unchanged; and each
individual merge step that doubles a tile of value t adds exactly t * 2 to
the score, in both scan orientations. -/
theorem C6_score_merge_accounting (g : Grid) (d : MoveDirection) (s : Nat)
    (h : WF g) :
    (moveScore d g s).1 = move d g ∧
    s ≤ (moveScore d g s).2 ∧
    (tileCountG (move d g) = tileCountG g → (moveScore d g s).2 = s) ∧
    (∀ r x t x2 s2, r.getD x Vacant = Tile t →
      firstTileFrom r (x + 1) = some (x2, t) →
      (leftMergeAtS (r, s2) x).2 = s2 + t * 2) ∧
    (∀ r x t x2 s2, r.getD x Vacant = Tile t →
      firstTileBelow r x = some (x2, t) →
      (rightMergeAtS (r, s2) x).2 = s2 + t * 2) := by
  refine ⟨?_, ?_, ?_,
    fun r x t x2 s2 h1 h2 => leftMergeAtS_merge (r, s2) x t x2 h1 h2,
    fun r x t x2 s2 h1 h2 => rightMergeAtS_merge (r, s2) x t x2 h1 h2⟩
  · cases d with
    | Left => exact linesScore_fst lineScoreL leftLine lineScoreL_fst g s
    | Right => exact linesScore_fst lineScoreR rightLine lineScoreR_fst g s
    | Up =>
      simp only [moveScore, move]
      rw [lineScoreL_fst, lineScoreL_fst, lineScoreL_fst, lineScoreL_fst,
        upLine_eq_leftLine]
    | Down =>
      simp only [moveScore, move]
      rw [lineScoreR_fst, lineScoreR_fst, lineScoreR_fst, lineScoreR_fst,
        downLine_eq_rightLine]
  · cases d with
    | Left => exact linesScore_mono lineScoreL lineScoreL_mono g s
    | Right => exact linesScore_mono lineScoreR lineScoreR_mono g s
    | Up =>
      simp only [moveScore]
      exact Nat.le_trans (lineScoreL_mono _ s)
        (Nat.le_trans (lineScoreL_mono _ _)
          (Nat.le_trans (lineScoreL_mono _ _) (lineScoreL_mono _ _)))
    | Down =>
      simp only [moveScore]
      exact Nat.le_trans (lineScoreR_mono _ s)
        (Nat.le_trans (lineScoreR_mono _ _)
          (Nat.le_trans (lineScoreR_mono _ _) (lineScoreR_mono _ _)))
  · intro hc
    cases d with
    | Left =>
      exact linesScore_fix lineScoreL
        (fun r => tileCountL (leftLine r) = tileCountL r)
        lineScoreL_fix g s (move_left_count_pointwise g hc)
    | Right =>
      exact linesScore_fix lineScoreR
        (fun r => tileCountL (rightLine r) = tileCountL r)
        lineScoreR_fix g s (move_right_count_pointwise g hc)
    | Up =>
      have hp := move_up_count_pointwise g h hc
      have h0 : tileCountL (leftLine (col g 0)) = tileCountL (col g 0) := by
        rw [← upLine_eq_leftLine]; exact hp 0 (by omega)
      have h1 : tileCountL (leftLine (col g 1)) = tileCountL (col g 1) := by
        rw [← upLine_eq_leftLine]; exact hp 1 (by omega)
      have h2 : tileCountL (leftLine (col g 2)) = tileCountL (col g 2) := by
        rw [← upLine_eq_leftLine]; exact hp 2 (by omega)
      have h3 : tileCountL (leftLine (col g 3)) = tileCountL (col g 3) := by
        rw [← upLine_eq_leftLine]; exact hp 3 (by omega)
      simp only [moveScore]
      rw [lineScoreL_fix (col g 3) h3, lineScoreL_fix (col g 2) h2,
        lineScoreL_fix (col g 1) h1, lineScoreL_fix (col g 0) h0]
    | Down =>
      have hp := move_down_count_pointwise g h hc
      have h0 : tileCountL (rightLine (col g 0)) = tileCountL (col g 0) := by
        rw [← downLine_eq_rightLine]; exact hp 0 (by omega)
      have h1 : tileCountL (rightLine (col g 1)) = tileCountL (col g 1) := by
        rw [← downLine_eq_rightLine]; exact hp 1 (by omega)
      have h2 : tileCountL (rightLine (col g 2)) = tileCountL (col g 2) := by
        rw [← downLine_eq_rightLine]; exact hp 2 (by omega)
      have h3 : tileCountL (rightLine (col g 3)) = tileCountL (col g 3) := by
        rw [← downLine_eq_rightLine]; exact hp 3 (by omega)
      simp only [moveScore]
      rw [lineScoreR_fix (col g 3) h3, lineScoreR_fix (col g 2) h2,
        lineScoreR_fix (col g 1) h1, lineScoreR_fix (col g 0) h0]

theorem C6_score_merge_accounting_witness :
    (moveScore MoveDirection.Up sampleBoard 7).1 =
      move MoveDirection.Up sampleBoard ∧
    7 ≤ (moveScore MoveDirection.Up sampleBoard 7).2 :=
  ⟨(C6_score_merge_accounting sampleBoard MoveDirection.Up 7
      ⟨rfl, by decide⟩).1,
    (C6_score_merge_accounting sampleBoard MoveDirection.Up 7
      ⟨rfl, by decide⟩).2.1⟩

theorem natChars_all_digits (n : Nat) :
    ∀ c ∈ natChars n, isDigitC c = true := by
  intro c hc
  rw [natChars] at hc
  by_cases hn : n = 0
  · rw [if_pos hn] at hc
    simp at hc
    subst hc
    decide
  · rw [if_neg hn] at hc
    obtain ⟨d, hd, rfl⟩ := List.mem_map.mp hc
    rw [List.mem_reverse] at hd
    have hlt : d < 10 := Nat.digits_lt_base (by norm_num) hd
    simp [isDigitC]
    omega

theorem natChars_ne_nil (n : Nat) : natChars n ≠ [] := by
  rw [natChars]
  by_cases hn : n = 0
  · rw [if_pos hn]
    simp
  · rw [if_neg hn]
    simp [Nat.digits_ne_nil_iff_ne_zero, hn]

theorem map_foldl_digits (ds : List Nat) :
    ∀ a, ((ds.map fun d => 48 + d).foldl (fun a c => a * 10 + (c - 48)) a) =
      ds.foldl (fun a d => a * 10 + d) a := by
  induction ds with
  | nil => intro a; rfl
  | cons d ds ih =>
    intro a
    simp only [List.map_cons, List.foldl_cons]
    rw [ih]
    congr 1
    omega

theorem foldl_rev_ofDigits (ds : List Nat) :
    ∀ a, ds.reverse.foldl (fun a d => a * 10 + d) a =
      a * 10 ^ ds.length + Nat.ofDigits 10 ds := by
  induction ds with
  | nil => intro a; simp [Nat.ofDigits]
  | cons d ds ih =>
    intro a
    simp only [List.reverse_cons, List.foldl_append, List.foldl_cons,
      List.foldl_nil]
    rw [ih a, Nat.ofDigits_cons, List.length_cons]
    push_cast
    ring

theorem parseDigits_all (cs : List Nat) (hne : cs ≠ [])
    (h : ∀ c ∈ cs, isDigitC c = true) :
    parseDigits cs = some (cs.foldl (fun a c => a * 10 + (c - 48)) 0) := by
  rw [parseDigits, if_neg (by simpa [List.isEmpty_iff] using hne),
    if_pos (List.all_eq_true.mpr h)]

theorem parseNat_eq_parseDigits (cs : List Nat) (hne : cs ≠ [])
    (h : ∀ c ∈ cs, isDigitC c = true) : parseNat cs = parseDigits cs := by
  cases cs with
  | nil => exact absurd rfl hne
  | cons c rest =>
    have hc := h c (List.mem_cons_self c rest)
    simp [isDigitC] at hc
    show (if c = 43 then parseDigits rest else parseDigits (c :: rest)) = _
    rw [if_neg (by omega)]

theorem parseNat_natChars (n : Nat) : parseNat (natChars n) = some n := by
  by_cases hn : n = 0
  · subst hn
    decide
  · rw [parseNat_eq_parseDigits _ (natChars_ne_nil n) (natChars_all_digits n),
      parseDigits_all _ (natChars_ne_nil n) (natChars_all_digits n)]
    rw [natChars, if_neg hn, map_foldl_digits, foldl_rev_ofDigits]
    rw [Nat.ofDigits_digits]
    simp

theorem natChars_ne_zws (n : Nat) : natChars n ≠ zws := by
  intro he
  have hm : (8203 : Nat) ∈ natChars n := by
    rw [he]
    exact List.mem_cons_self _ _
  have := natChars_all_digits n 8203 hm
  simp [isDigitC] at this

theorem decodeCell_encodeCell (c : BoardSpace) :
    decodeCell (encodeCell c) = some c := by
  cases c with
  | Vacant => rfl
  | Tile n =>
    show decodeCell (natChars n) = some (Tile n)
    rw [decodeCell, if_neg (natChars_ne_zws n), parseNat_natChars]
    rfl

theorem decodeLabels_encodeRow (r : Row) :
    decodeLabels (encodeRowLabels r) = some r := by
  induction r with
  | nil => rfl
  | cons a rest ih =>
    show decodeLabels (some (encodeCell a) :: encodeRowLabels rest) =
      some (a :: rest)
    rw [decodeLabels, decodeCell_encodeCell, ih]

theorem decodeRows_encodeRows (g : Grid) :
    decodeRows (g.map encodeRowLabels) = some g := by
  induction g with
  | nil => rfl
  | cons r rest ih =>
    show decodeRows (encodeRowLabels r :: rest.map encodeRowLabels) =
      some (r :: rest)
    rw [decodeRows, decodeLabels_encodeRow, ih]

theorem isPrefixOf_append (p t : List Nat) : p.isPrefixOf (p ++ t) = true := by
  induction p with
  | nil => simp [List.isPrefixOf]
  | cons a p ih => simp [List.isPrefixOf, ih]

theorem findAfter_self_prefix (p t : List Nat) (hp : p ≠ []) :
    findAfter p (p ++ t) = some t := by
  cases p with
  | nil => exact absurd rfl hp
  | cons a p =>
    show findAfter (a :: p) (a :: (p ++ t)) = some t
    have hpre : (a :: p).isPrefixOf (a :: (p ++ t)) = true := by
      have hh := isPrefixOf_append (a :: p) t
      rwa [List.cons_append] at hh
    rw [findAfter, if_pos hpre]
    simp

theorem findAfter_cons_ne (pat : List Nat) (c : Nat) (rest : List Nat)
    (h : pat.isPrefixOf (c :: rest) = false) :
    findAfter pat (c :: rest) = findAfter pat rest := by
  rw [findAfter, if_neg (by simp [h])]

theorem dropWhile_isWs_eq_self (l : List Nat)
    (h : ∀ c ∈ l, isWs c = false) : l.dropWhile isWs = l := by
  cases l with
  | nil => rfl
  | cons a l =>
    rw [List.dropWhile_cons, if_neg (by simp [h a (List.mem_cons_self a l)])]

theorem trimL_no_ws (l : List Nat) (h : ∀ c ∈ l, isWs c = false) :
    trimL l = l := by
  rw [trimL, dropWhile_isWs_eq_self l h,
    dropWhile_isWs_eq_self l.reverse
      (fun c hc => h c (List.mem_reverse.mp hc)),
    List.reverse_reverse]

theorem natChars_no_ws (n : Nat) : ∀ c ∈ natChars n, isWs c = false := by
  intro c hc
  have := natChars_all_digits n c hc
  simp [isDigitC] at this
  simp [isWs]
  omega

theorem decodeScore_encodeContent (score : Nat) (lost : Bool) :
    decodeScore (encodeContent score lost) = score := by
  have hfind : findAfter scorePrefix (encodeContent score lost) =
      some (natChars score) := by
    cases lost with
    | false =>
      show findAfter scorePrefix (([] : List Nat) ++ scorePrefix ++
        natChars score) = some (natChars score)
      rw [List.nil_append]
      exact findAfter_self_prefix scorePrefix (natChars score) (by decide)
    | true =>
      show findAfter scorePrefix (gameOverPrefix ++ scorePrefix ++
        natChars score) = some (natChars score)
      rw [List.append_assoc]
      rw [show gameOverPrefix ++ (scorePrefix ++ natChars score) =
        42 :: 42 :: 71 :: 97 :: 109 :: 101 :: 32 :: 79 :: 118 :: 101 ::
        114 :: 33 :: 42 :: 42 :: 10 :: 62 :: 32 ::
        (scorePrefix ++ natChars score) from rfl]
      rw [findAfter_cons_ne _ _ _ (by simp [scorePrefix, List.isPrefixOf]),
        findAfter_cons_ne _ _ _ (by simp [scorePrefix, List.isPrefixOf]),
        findAfter_cons_ne _ _ _ (by simp [scorePrefix, List.isPrefixOf]),
        findAfter_cons_ne _ _ _ (by simp [scorePrefix, List.isPrefixOf]),
        findAfter_cons_ne _ _ _ (by simp [scorePrefix, List.isPrefixOf]),
        findAfter_cons_ne _ _ _ (by simp [scorePrefix, List.isPrefixOf]),
        findAfter_cons_ne _ _ _ (by simp [scorePrefix, List.isPrefixOf]),
        findAfter_cons_ne _ _ _ (by simp [scorePrefix, List.isPrefixOf]),
        findAfter_cons_ne _ _ _ (by simp [scorePrefix, List.isPrefixOf]),
        findAfter_cons_ne _ _ _ (by simp [scorePrefix, List.isPrefixOf]),
        findAfter_cons_ne _ _ _ (by simp [scorePrefix, List.isPrefixOf]),
        findAfter_cons_ne _ _ _ (by simp [scorePrefix, List.isPrefixOf]),
        findAfter_cons_ne _ _ _ (by simp [scorePrefix, List.isPrefixOf]),
        findAfter_cons_ne _ _ _ (by simp [scorePrefix, List.isPrefixOf]),
        findAfter_cons_ne _ _ _ (by simp [scorePrefix, List.isPrefixOf]),
        findAfter_cons_ne _ _ _ (by simp [scorePrefix, List.isPrefixOf]),
        findAfter_cons_ne _ _ _ (by simp [scorePrefix, List.isPrefixOf])]
      exact findAfter_self_prefix scorePrefix (natChars score) (by decide)
  rw [decodeScore, hfind]
  show (parseNat (trimL (natChars score))).getD 0 = score
  rw [trimL_no_ws (natChars score) (natChars_no_ws score),
    parseNat_natChars]
  rfl

theorem encodeComponents_take (g : Grid) (h4 : g.length = 4) :
    (encodeComponents g).take 4 = g.map encodeRowLabels := by
  rw [encodeComponents,
    show (4 : Nat) = (g.map encodeRowLabels).length by
      rw [List.length_map, h4]]
  exact List.take_left _ _

/-- C3: decoding a rendered message reproduces the board exactly: render
each cell as a button label (Vacant as the zero-width-space sentinel,
Tile v as the decimal string of v) plus the `**Score:** ` text (with or
without the game-over banner before it), then read the first four
component rows' labels in row-major order and parse the score text; the
original grid and score come back: decode (encode board) = board. -/
theorem C3_codec_round_trip (g : Grid) (score : Nat) (lost : Bool)
    (h : WF g) :
    decodeMsg (encodeMsg g score lost) = some (g, score) := by
  rw [decodeMsg]
  show (match decodeRows ((encodeComponents g).take 4) with
    | some rows => some (rows, decodeScore (encodeContent score lost))
    | none => none) = some (g, score)
  rw [encodeComponents_take g h.1, decodeRows_encodeRows g,
    decodeScore_encodeContent score lost]

theorem C3_codec_round_trip_witness :
    decodeMsg (encodeMsg sampleBoard 5 false) = some (sampleBoard, 5) :=
  C3_codec_round_trip sampleBoard 5 false ⟨rfl, by decide⟩

/-- C9 counterexample: the claim reads the fallback as firing whenever
the text following `**Score:** ` does not parse as an unsigned integer,
but `handle_button` trims the text before parsing: with content
`**Score:**  42` (two spaces) the text after the prefix is ` 42`, which
does not parse as a usize, yet the decoded score is 42, not 0. -/
theorem C9_counterexample :
    parseNat [32, 52, 50] = none ∧
    decodeScore (scorePrefix ++ [32, 52, 50]) = 42 := by
  constructor
  · decide
  · decide

/-- C9 (amended): if the `**Score:** ` marker is absent from the message
content, the decoded score is 0; if the marker is present but the text
after it does not, after trimming surrounding whitespace, parse as an
unsigned integer, the decoded score is 0; and in general the decoded
score is always the trimmed-and-parsed value with 0 as the local
fallback, never an error. -/
theorem C9_score_fallback :
    (∀ content, findAfter scorePrefix content = none →
      decodeScore content = 0) ∧
    (∀ content rest, findAfter scorePrefix content = some rest →
      parseNat (trimL rest) = none → decodeScore content = 0) ∧
    (∀ content rest, findAfter scorePrefix content = some rest →
      decodeScore content = (parseNat (trimL rest)).getD 0) := by
  refine ⟨?_, ?_, ?_⟩
  · intro content hn
    rw [decodeScore, hn]
  · intro content rest hs hp
    rw [decodeScore, hs]
    show (parseNat (trimL rest)).getD 0 = 0
    rw [hp]
    rfl
  · intro content rest hs
    rw [decodeScore, hs]

theorem C9_score_fallback_witness :
    decodeScore [] = 0 ∧
    decodeScore (scorePrefix ++ [104, 105]) = 0 :=
  ⟨C9_score_fallback.1 [] (by decide),
    C9_score_fallback.2.1 (scorePrefix ++ [104, 105]) [104, 105]
      (by decide) (by decide)⟩

end Game2048
